import Mathlib

/-!
Verification development for a browser-based image steganography detector.

The program inspects image byte streams for embedded file signatures, data
appended after an image's end-of-stream marker, and LSB steganography.  Two
engine variants are embedded here, mirroring the two analysis implementations
in the sources:

* namespace `P0` — the region-based signature scanner (constants
  `IMAGE_TERMINATION_BYTES` / `FILE_SIGNATURES`, `jpegEndOffset`,
  `pngEndOffset`, `validateAppendedData`, `analyzeFileSignatures`);
* namespace `App` — the confidence-scoring scanner
  (`validateSignatureDetection`, `validateAppendedData`,
  `findImageTerminationPoints`, `analyzeFileSignatures`) together with the
  LSB extraction and statistical tests (`extractStandardLSB`,
  `binaryToASCII`, `performChiSquareTest`, `performSamplePairsAnalysis`).

Byte sources are `List ℕ` (a `Uint8Array` has entries `< 256`; the
definitions only ever combine bytes with `/ 16`, `% 16`, `% 2`, so they are
stated for arbitrary naturals).  JavaScript floating-point arithmetic on
scores is modelled exactly: score arithmetic whose inputs are decimal
constants is over `ℚ` or `ℝ`, and the transcendental pieces
(`Math.log2`, `Math.exp`, `Math.sqrt`) are `Real.logb`, `Real.exp`,
`Real.sqrt`.
-/

namespace StegCheck

/-- Hex-nibble stream of a byte list: the model of
`bytes.map(b => b.toString(16).padStart(2,'0')).join('')`, one list entry per
hex digit.  (Case of the hex letters is irrelevant since signatures are
compared in matching case in both sources.) -/
def nibbles (u8 : List ℕ) : List ℕ :=
  u8.flatMap fun b => [b / 16, b % 16]

/-- First index at which `pat` occurs in `l` (`String.indexOf` on the hex
stream, in nibble units); `none` when absent. -/
def findPrefixIdx (pat : List ℕ) : List ℕ → Option ℕ
  | [] => if pat = [] then some 0 else none
  | l@(_ :: t) => if pat.isPrefixOf l then some 0 else (findPrefixIdx pat t).map (· + 1)

/-- All match positions of `pat` found by the repeated
`indexOf(pat, idx + pat.length)` loop: after a hit at `i` the search resumes
`pat.length` nibbles further on.  (`pat = []` would loop forever in the
source; every signature constant is nonempty, and the guard returns `[]`.) -/
def occList (pat : List ℕ) (l : List ℕ) : List ℕ := go (l.length + 1) l 0
where
  /-- The loop, indexed by fuel: every step consumes at least one element of
  the stream (a nonempty pattern cannot match past the end), so `l.length + 1`
  steps reproduce the source loop exactly. -/
  go : ℕ → List ℕ → ℕ → List ℕ
    | 0, _, _ => []
    | fuel + 1, l, base =>
      if pat.length = 0 then []
      else
        match findPrefixIdx pat l with
        | none => []
        | some i => (base + i) :: go fuel (l.drop (i + pat.length)) (base + i + pat.length)

/-- `Array.prototype.lastIndexOf`: index of the last occurrence of `v`,
`none` when absent. -/
def lastIdxOf (v : ℕ) : List ℕ → Option ℕ
  | [] => none
  | a :: t =>
    match lastIdxOf v t with
    | some j => some (j + 1)
    | none => if a = v then some 0 else none

namespace App

/-! ### LSB extraction and text recovery -/

/-- `extractStandardLSB`: walks the RGBA pixel stream four entries at a time
and emits the LSB of the R, G and B channels.  A missing channel in a
truncated final group reads as bit `0` (`undefined & 1` in the source). -/
def extractStandardLSB : List ℕ → List ℕ
  | [] => []
  | [a] => [a % 2, 0, 0]
  | [a, b] => [a % 2, b % 2, 0]
  | [a, b, c] => [a % 2, b % 2, c % 2]
  | a :: b :: c :: _ :: rest => a % 2 :: b % 2 :: c % 2 :: extractStandardLSB rest

/-- `parseInt(byte, 2)` on an 8-character chunk of `'0'`/`'1'`: most
significant bit first. -/
def byteVal (bits : List ℕ) : ℕ :=
  bits.foldl (fun acc b => acc * 2 + b) 0

/-- The byte stream of `binaryToASCII`: consecutive 8-bit chunks of the bit
string, any final chunk shorter than 8 bits discarded. -/
def bytesOfBits : List ℕ → List ℕ
  | b0 :: b1 :: b2 :: b3 :: b4 :: b5 :: b6 :: b7 :: rest =>
    byteVal [b0, b1, b2, b3, b4, b5, b6, b7] :: bytesOfBits rest
  | _ => []

/-- Character loop of `binaryToASCII`: printable ASCII codes (32–126) are
kept, a NUL byte terminates the scan, every other code is skipped. -/
def asciiBytes : List ℕ → List ℕ
  | [] => []
  | c :: rest =>
    if 32 ≤ c ∧ c ≤ 126 then c :: asciiBytes rest
    else if c = 0 then []
    else asciiBytes rest

/-- White-space set of `String.prototype.trim` restricted to code points
below 256 (the only ones `asciiBytes` can produce are 32–126, so only the
space matters). -/
def isJsWs (c : ℕ) : Bool :=
  c = 9 ∨ c = 10 ∨ c = 11 ∨ c = 12 ∨ c = 13 ∨ c = 32 ∨ c = 160

/-- `text.trim()`: drop white space from both ends. -/
def jsTrim (l : List ℕ) : List ℕ :=
  (((l.dropWhile isJsWs).reverse.dropWhile isJsWs).reverse)

/-- `binaryToASCII`: chunk the bit string into bytes, keep printable ASCII up
to the first NUL, and trim the result.  Characters are their code points. -/
def binaryToASCII (bits : List ℕ) : List ℕ :=
  jsTrim (asciiBytes (bytesOfBits bits))

/-- Bits of one byte, most significant first (the embedding direction that
`byteVal` inverts). -/
def byteBits (c : ℕ) : List ℕ :=
  [c / 128 % 2, c / 64 % 2, c / 32 % 2, c / 16 % 2, c / 8 % 2, c / 4 % 2,
   c / 2 % 2, c % 2]

/-- MSB-first bit stream of a byte list. -/
def bitsOfBytes (bs : List ℕ) : List ℕ :=
  bs.flatMap byteBits

/-- Overwrite the least-significant bit of a channel value. -/
def setLSB (v b : ℕ) : ℕ := v - v % 2 + b

/-- Write a bit stream into the LSBs of the R, G, B channels of an RGBA
channel stream (channel index `k % 4 = 3` is alpha and is skipped); channels
beyond the end of the bit stream keep their cover value. -/
def embedBits (bits cover : List ℕ) : List ℕ :=
  go bits cover 0
where
  go : List ℕ → List ℕ → ℕ → List ℕ
    | _, [], _ => []
    | [], cover, _ => cover
    | b :: bs, c :: cs, k =>
      if k % 4 = 3 then c :: go (b :: bs) cs (k + 1)
      else setLSB c b :: go bs cs (k + 1)

/-- Modelled from the spec: the repository ships no embedder, only the
extractor, so the "standard method" embedding (one LSB each of R, G, B per
pixel, bits packed MSB-first, message null-terminated) is taken from the
spec's description of the LSB round-trip. -/
def embedStandardLSB (msg : List ℕ) (cover : List ℕ) : List ℕ :=
  embedBits (bitsOfBytes (msg ++ [0])) cover

/-! ### Statistical tests -/

/-- The six LSB buckets of `performChiSquareTest`: zero/one counts of the
R, G and B channel LSBs (`histogram[r]`, `histogram[g+2]`, `histogram[b+4]`).
A missing channel in a truncated final group reads as `0`. -/
structure ChiHist where
  r0 : ℕ
  r1 : ℕ
  g0 : ℕ
  g1 : ℕ
  b0 : ℕ
  b1 : ℕ
deriving DecidableEq

/-- Record one pixel's channel LSBs in the histogram. -/
def ChiHist.bump (h : ChiHist) (rb gb bb : ℕ) : ChiHist where
  r0 := h.r0 + (if rb = 0 then 1 else 0)
  r1 := h.r1 + (if rb = 0 then 0 else 1)
  g0 := h.g0 + (if gb = 0 then 1 else 0)
  g1 := h.g1 + (if gb = 0 then 0 else 1)
  b0 := h.b0 + (if bb = 0 then 1 else 0)
  b1 := h.b1 + (if bb = 0 then 0 else 1)

/-- LSB histogram of the pixel stream, four entries per step. -/
def chiHist : List ℕ → ChiHist
  | [] => ⟨0, 0, 0, 0, 0, 0⟩
  | [a] => (ChiHist.mk 0 0 0 0 0 0).bump (a % 2) 0 0
  | [a, b] => (ChiHist.mk 0 0 0 0 0 0).bump (a % 2) (b % 2) 0
  | [a, b, c] => (ChiHist.mk 0 0 0 0 0 0).bump (a % 2) (b % 2) (c % 2)
  | a :: b :: c :: _ :: rest => (chiHist rest).bump (a % 2) (b % 2) (c % 2)

/-- χ² statistic of `performChiSquareTest`: six buckets against the uniform
expectation `pixels.length / 4 / 2`.  (For an empty stream the source divides
0 by 0, giving NaN, and flags nothing; `ℚ` division by zero likewise yields a
statistic of 0 and no flag.) -/
def chiSquareStat (pixels : List ℕ) : ℚ :=
  let e : ℚ := (pixels.length : ℚ) / 4 / 2
  let h := chiHist pixels
  ((h.r0 : ℚ) - e) ^ 2 / e + ((h.r1 : ℚ) - e) ^ 2 / e +
    ((h.g0 : ℚ) - e) ^ 2 / e + ((h.g1 : ℚ) - e) ^ 2 / e +
    ((h.b0 : ℚ) - e) ^ 2 / e + ((h.b1 : ℚ) - e) ^ 2 / e

/-- `chiSquareCDF`: the source's sigmoid approximation
`1 / (1 + exp(-sqrt(2x/k)))`. -/
noncomputable def chiSquareCDF (x k : ℝ) : ℝ :=
  1 / (1 + Real.exp (-Real.sqrt (2 * x / k)))

/-- Result record of the Chi-Square test. -/
structure ChiSquareResult where
  chiSquare : ℚ
  pValue : ℝ
  suspicious : Prop

/-- `performChiSquareTest`: statistic, approximate p-value at 5 degrees of
freedom, and the `p < 0.05` flag. -/
noncomputable def performChiSquareTest (pixels : List ℕ) : ChiSquareResult :=
  let stat := chiSquareStat pixels
  let p : ℝ := 1 - chiSquareCDF (stat : ℝ) 5
  { chiSquare := stat, pValue := p, suspicious := p < 0.05 }

/-- One channel comparison of the sample-pairs loop: a pair counts when both
channel reads are in range (an out-of-range read is `undefined`, and every
NaN comparison is false) and the values differ by at most 1; it is regular
when additionally the LSBs agree. -/
def spChannel (pixels : List ℕ) (i ch : ℕ) : ℕ × ℕ :=
  if i + 4 + ch < pixels.length then
    let p1 := pixels.getD (i + ch) 0
    let p2 := pixels.getD (i + 4 + ch) 0
    if ((p1 : ℤ) - (p2 : ℤ)).natAbs ≤ 1 then
      (1, if p1 % 2 = p2 % 2 then 1 else 0)
    else (0, 0)
  else (0, 0)

/-- The `(pairs, regularPairs)` totals of `performSamplePairsAnalysis`,
stepping `i` by 4 while `i < pixels.length - 4`. -/
def spCounts (pixels : List ℕ) (i : ℕ) : ℕ × ℕ :=
  if i < pixels.length - 4 then
    let c0 := spChannel pixels i 0
    let c1 := spChannel pixels i 1
    let c2 := spChannel pixels i 2
    let rest := spCounts pixels (i + 4)
    (c0.1 + c1.1 + c2.1 + rest.1, c0.2 + c1.2 + c2.2 + rest.2)
  else (0, 0)
  termination_by pixels.length - i
  decreasing_by omega

/-- Result record of the sample-pairs test (`ratio` is `regularFraction`
here). -/
structure SamplePairsResult where
  regularFraction : ℚ
  pairsCount : ℕ
  regularCount : ℕ
  suspicious : Bool
deriving DecidableEq

/-- `performSamplePairsAnalysis`: fraction of regular close pairs, flagged
when outside `[0.4, 0.6]`; a pair count of zero yields ratio 0 (and hence a
flag). -/
def performSamplePairsAnalysis (pixels : List ℕ) : SamplePairsResult :=
  let c := spCounts pixels 0
  let r : ℚ := if 0 < c.1 then (c.2 : ℚ) / (c.1 : ℚ) else 0
  { regularFraction := r, pairsCount := c.1, regularCount := c.2,
    suspicious := decide (r < 2/5 ∨ 3/5 < r) }

end App

/-! ### Shared enumerations -/

/-- Declared format hint (`currentFile.type` matched with `includes`). -/
inductive FormatHint where
  | jpeg
  | png
  | gif
  | other
deriving DecidableEq

/-- `DETECTION_MODES` keys. -/
inductive Mode where
  | conservative
  | balanced
  | aggressive
deriving DecidableEq

/-- `confidenceThreshold` of each detection mode (0.8 / 0.6 / 0.4). -/
def Mode.threshold : Mode → ℝ
  | .conservative => 0.8
  | .balanced => 0.6
  | .aggressive => 0.4

/-- Risk tiers of the signature table. -/
inductive Risk where
  | LOW
  | MEDIUM
  | HIGH
  | CRITICAL
deriving DecidableEq

/-- One summand of the Shannon entropy: `-p * log2 p` over the nonzero
buckets. -/
noncomputable def entTerm (p : ℝ) : ℝ :=
  if 0 < p then -(p * Real.logb 2 p) else 0

/-- Validation record for bytes trailing a terminator. -/
structure AppendedValidation where
  confidence : ℝ
  risk : Risk

namespace P0

/-! ### The region-based signature scanner -/

/-- `jpegEndOffset` helper: the backward loop
`for (i = u8.length - 2; i >= 1; i--)`, testing `u8[i] = 0xD9` and
`u8[i-1] = 0xFF` and answering `i + 1`. -/
def jpegGo (u8 : List ℕ) : ℕ → Int
  | 0 => -1
  | i + 1 =>
    if u8.getD (i + 1) 0 = 0xD9 ∧ u8.getD i 0 = 0xFF then ((i + 2 : ℕ) : Int)
    else jpegGo u8 i

/-- `jpegEndOffset`: scan from the tail for the `FF D9` marker pair; `-1`
when the loop finds none.  The loop starts at index `u8.length - 2`. -/
def jpegEndOffset (u8 : List ℕ) : Int :=
  jpegGo u8 (u8.length - 2)

/-- The fixed 12-byte PNG `IEND` chunk. -/
def pngSig : List ℕ :=
  [0, 0, 0, 0, 0x49, 0x45, 0x4E, 0x44, 0xAE, 0x42, 0x60, 0x82]

/-- `pngEndOffset`: forward scan for the `IEND` chunk, answering the offset
just past it, `-1` when absent. -/
def pngEndOffset (u8 : List ℕ) : Int :=
  match findPrefixIdx pngSig u8 with
  | some i => ((i + 12 : ℕ) : Int)
  | none => -1

/-- End-of-image offset per format hint.  For GIF the source computes
`u8.lastIndexOf(0x3B) + 1`, so an absent trailer byte yields `-1 + 1 = 0`
rather than the `-1` sentinel. -/
def endOffsetFor (u8 : List ℕ) : FormatHint → Int
  | .jpeg => jpegEndOffset u8
  | .png => pngEndOffset u8
  | .gif => (lastIdxOf 0x3B u8).elim (-1 : Int) (fun j => (j : Int)) + 1
  | .other => -1

/-- The signature nibble patterns probed by `checkForKnownSignatures`
(MZ, ZIP, RAR, 7z, PDF). -/
def knownSigPatterns : List (List ℕ) :=
  [[4, 13, 5, 10], [5, 0, 4, 11, 0, 3, 0, 4], [5, 2, 6, 1, 7, 2, 2, 1],
   [3, 7, 7, 10, 11, 12, 10, 15, 2, 7, 1, 12], [2, 5, 5, 0, 4, 4, 4, 6]]

/-- `checkForKnownSignatures`: false for fewer than 4 bytes, else whether
any known pattern occurs in the hex stream of the first ≤ 4096 bytes. -/
def checkForKnownSignatures (data : List ℕ) : Bool :=
  if data.length < 4 then false
  else
    let hex := nibbles (data.take (min 4096 data.length))
    knownSigPatterns.any fun s => (findPrefixIdx s hex).isSome

/-- `analyzeLocalEntropy`: normalized Shannon entropy (bits / 8) of
`data.slice(start, min(start + max(1, length), data.length))` over a
256-bucket histogram; 0 for an empty input.  (`n = sample.length || 1`
guards the division.) -/
noncomputable def analyzeLocalEntropy (u8 : List ℕ) (offset length : ℕ) : ℝ :=
  if u8.length = 0 then 0
  else
    let start := offset
    let stop := min (start + max 1 length) u8.length
    let sample := (u8.take stop).drop start
    let n : ℕ := if sample.length = 0 then 1 else sample.length
    (∑ i ∈ Finset.range 256, entTerm ((sample.count i : ℝ) / (n : ℝ))) / 8

/-- Validation record for bytes trailing a terminator. -/
structure AppendedValidation where
  confidence : ℝ
  risk : Risk

open Classical in
/-- `validateAppendedData`: null-byte ratio of the first ≤ 8192 bytes picks
a base score (0.1 / 0.3 / 0.6), entropy above 0.5 adds 0.3, a known embedded
signature adds 0.4 and forces HIGH risk; the sum is clamped to 1. -/
noncomputable def validateAppendedData (data : List ℕ) : AppendedValidation :=
  if data.length = 0 then ⟨0, .LOW⟩
  else
    let n := min data.length 8192
    let zeros := (data.take n).count 0
    let nullRatio : ℚ := (zeros : ℚ) / (n : ℚ)
    let base : ℝ := if 9/10 < nullRatio then 0.1 else if 7/10 < nullRatio then 0.3 else 0.6
    let ent := analyzeLocalEntropy data 0 (min 4096 data.length)
    let entB : ℝ := if 1/2 < ent then 0.3 else 0
    let hasSig := checkForKnownSignatures data
    let sigB : ℝ := if hasSig then 0.4 else 0
    ⟨min 1 (base + entB + sigB),
     if hasSig then .HIGH else if 1/2 < ent then .MEDIUM else .LOW⟩

/-- Scan-region kinds (`'appended'`, `'full_skip_header'`, `'full'`). -/
inductive RegionKind where
  | appended
  | fullSkipHeader
  | full
deriving DecidableEq

/-- A scan region. -/
structure Region where
  start : ℕ
  kind : RegionKind
deriving DecidableEq

/-- Region selection keyed by `(mode, terminator)`: an appended region when
the end marker leaves more than 4096 trailing bytes; balanced adds the
post-64-KiB region; aggressive adds the whole file. -/
def regionsFor (u8 : List ℕ) (hint : FormatHint) (mode : Mode) : List Region :=
  let e := endOffsetFor u8 hint
  let appended : List Region :=
    if -1 < e ∧ e < (u8.length : Int) - 4096 then [⟨e.toNat, .appended⟩] else []
  appended ++
    match mode with
    | .conservative => []
    | .balanced => [⟨64 * 1024, .fullSkipHeader⟩]
    | .aggressive => [⟨0, .full⟩]

/-- The signature table (`FILE_SIGNATURES`): nibble pattern, extensions,
risk tier and minimum plausible size. -/
structure SigEntry where
  key : List ℕ
  ext : List String
  risk : Risk
  minSize : ℕ
deriving DecidableEq

/-- `FILE_SIGNATURES`, in source order. -/
def sigTable : List SigEntry :=
  [⟨[4, 13, 5, 10], ["exe", "dll", "scr", "com"], .CRITICAL, 1024⟩,
   ⟨[7, 15, 4, 5, 4, 12, 4, 6], ["elf", "so", "o"], .CRITICAL, 1024⟩,
   ⟨[5, 0, 4, 11, 0, 3, 0, 4], ["zip", "jar", "apk", "docx", "xlsx"], .HIGH, 22⟩,
   ⟨[5, 2, 6, 1, 7, 2, 2, 1], ["rar"], .HIGH, 64⟩,
   ⟨[3, 7, 7, 10, 11, 12, 10, 15, 2, 7, 1, 12], ["7z"], .HIGH, 64⟩,
   ⟨[2, 5, 5, 0, 4, 4, 4, 6], ["pdf"], .MEDIUM, 100⟩]

/-- A reported signature hit. -/
structure Hit where
  signature : List ℕ
  offset : ℕ
  ext : List String
  risk : Risk
  foundVia : RegionKind
deriving DecidableEq

/-- Signature search over one region: hex stream of the first ≤ 256 KiB of
the window from `start`; for each table pattern the first `indexOf` match
becomes a hit at byte offset `start + idx / 2` unless fewer than `minSize`
bytes remain in the whole source. -/
def regionHits (u8 : List ℕ) (start : ℕ) (via : RegionKind) : List Hit :=
  let window := u8.drop start
  let budget := min window.length (256 * 1024)
  let slab := window.take budget
  let hex := nibbles slab
  sigTable.filterMap fun e =>
    match findPrefixIdx e.key hex with
    | none => none
    | some idx =>
      let off := start + idx / 2
      if u8.length - off < e.minSize then none
      else some ⟨e.key, off, e.ext, e.risk, via⟩

/-- The strong-validation gate on an appended region: a known signature in
the window, validation confidence at least the mode threshold, and a window
of at least 4096 bytes. -/
noncomputable def strongAppended (u8 : List ℕ) (θ : ℝ) (start : ℕ) : Prop :=
  checkForKnownSignatures (u8.drop start) = true ∧
    θ ≤ (validateAppendedData (u8.drop start)).confidence ∧
    4096 ≤ (u8.drop start).length

open Classical in
/-- Process one region: skip it when it starts beyond the source, gate an
appended region behind `strongAppended`, then run the signature search. -/
noncomputable def processRegion (u8 : List ℕ) (θ : ℝ) (r : Region) : List Hit :=
  if u8.length ≤ r.start then []
  else
    match r.kind with
    | .appended =>
      if strongAppended u8 θ r.start then regionHits u8 r.start .appended else []
    | k => regionHits u8 r.start k

/-- De-duplication by `signature + ':' + offset` with a `seen` set, keeping
the first hit of each key. -/
def dedupHits (l : List Hit) : List Hit :=
  go [] l
where
  go (seen : List (List ℕ × ℕ)) : List Hit → List Hit
    | [] => []
    | h :: t =>
      if (h.signature, h.offset) ∈ seen then go seen t
      else h :: go ((h.signature, h.offset) :: seen) t

/-- Threat levels produced by this scanner. -/
inductive Threat where
  | safe
  | high
  | critical
deriving DecidableEq

/-- `exeFound ? 'critical' : (any findings ? 'high' : 'safe')`. -/
def threatOf (findings : List Hit) : Threat :=
  if findings.any (fun h => h.ext.contains "exe") then .critical
  else if findings.isEmpty then .safe
  else .high

/-- Result of `analyzeFileSignatures`. -/
structure ScanOutcome where
  findings : List Hit
  threatLevel : Threat

/-- `analyzeFileSignatures`: select regions, scan each processed region,
de-duplicate across regions and classify the threat. -/
noncomputable def analyzeFileSignatures (u8 : List ℕ) (hint : FormatHint)
    (mode : Mode) : ScanOutcome :=
  let hits := (regionsFor u8 hint mode).flatMap (processRegion u8 mode.threshold)
  let findings := dedupHits hits
  ⟨findings, threatOf findings⟩

/-- The byte offsets whose contents the scanner's signature search reads:
for each processed region (within bounds, and past the strong-validation
gate when appended) the offsets of its `slab`, i.e.
`[start, start + min (len - start) 256KiB)`. -/
noncomputable def ScannedAt (u8 : List ℕ) (hint : FormatHint) (mode : Mode)
    (i : ℕ) : Prop :=
  ∃ r ∈ regionsFor u8 hint mode,
    r.start < u8.length ∧
    (r.kind = .appended → strongAppended u8 mode.threshold r.start) ∧
    r.start ≤ i ∧ i < r.start + min (u8.length - r.start) (256 * 1024)

end P0

namespace App

/-! ### The confidence-scoring signature scanner -/

/-- Detection-mode flag `contextValidation`. -/
def ModeCtx (m : Mode) : Bool :=
  match m with
  | .aggressive => false
  | _ => true

/-- Detection-mode field `minimumFileSize` (1024 / 512 / 100). -/
def modeMinimumFileSize : Mode → ℕ
  | .conservative => 1024
  | .balanced => 512
  | .aggressive => 100

/-- One entry of this scanner's `FILE_SIGNATURES` table: nibble pattern and
candidate extensions (name/description strings are display-only). -/
structure AppSigInfo where
  key : List ℕ
  ext : List String
deriving DecidableEq

/-- `FILE_SIGNATURES` flattened by `Object.values(...)`: executables,
archives, images, documents, audio/video, in source order. -/
def appSigTable : List AppSigInfo :=
  [⟨[4, 13, 5, 10], ["exe", "dll", "scr", "com"]⟩,
   ⟨[5, 10, 4, 13], ["exe"]⟩,
   ⟨[7, 15, 4, 5, 4, 12, 4, 6], ["", "bin", "elf", "o", "so"]⟩,
   ⟨[5, 0, 4, 11, 0, 3, 0, 4], ["zip", "jar", "apk", "docx", "xlsx"]⟩,
   ⟨[5, 0, 4, 11, 0, 5, 0, 6], ["zip"]⟩,
   ⟨[5, 2, 6, 1, 7, 2, 2, 1], ["rar"]⟩,
   ⟨[3, 7, 7, 10, 11, 12, 10, 15, 2, 7, 1, 12], ["7z"]⟩,
   ⟨[15, 15, 13, 8, 15, 15, 13, 11], ["jpg", "jpeg"]⟩,
   ⟨[8, 9, 5, 0, 4, 14, 4, 7, 0, 13, 0, 10, 1, 10, 0, 10], ["png"]⟩,
   ⟨[4, 7, 4, 9, 4, 6, 3, 8, 3, 7, 6, 1], ["gif"]⟩,
   ⟨[4, 7, 4, 9, 4, 6, 3, 8, 3, 9, 6, 1], ["gif"]⟩,
   ⟨[4, 2, 4, 13], ["bmp"]⟩,
   ⟨[2, 5, 5, 0, 4, 4, 4, 6], ["pdf"]⟩,
   ⟨[13, 0, 12, 15, 1, 1, 14, 0, 10, 1, 11, 1, 1, 10, 14, 1], ["doc", "xls", "ppt"]⟩,
   ⟨[5, 2, 4, 9, 4, 6, 4, 6], ["wav", "avi"]⟩,
   ⟨[4, 15, 6, 7, 6, 7, 5, 3], ["ogg", "oga", "ogv"]⟩]

/-- `IMAGE_TERMINATION_BYTES` as nibble patterns (jpeg `FFD9`, the PNG IEND
tail, gif `003B`); the empty bmp entry is skipped by the source. -/
def termPatterns : List (List ℕ) :=
  [[15, 15, 13, 9],
   [4, 9, 4, 5, 4, 14, 4, 4, 10, 14, 4, 2, 6, 0, 8, 2],
   [0, 0, 3, 11]]

/-- Ascending insertion into a sorted list of offsets. -/
def insertAsc (x : ℕ) : List ℕ → List ℕ
  | [] => [x]
  | y :: t => if x ≤ y then x :: y :: t else y :: insertAsc x t

/-- Sort offsets ascending (`.sort((a, b) => a.offset - b.offset)`). -/
def sortAsc : List ℕ → List ℕ
  | [] => []
  | x :: t => insertAsc x (sortAsc t)

/-- `findImageTerminationPoints`: every `indexOf` occurrence of each
terminator pattern in the hex stream, converted to the byte offset just past
the terminator (`idx/2 + termBytes.length/2`), sorted ascending.  Only the
offsets are modelled; the format tag feeds display strings. -/
def findImageTerminationPoints (u8 : List ℕ) : List ℕ :=
  let hex := nibbles u8
  sortAsc (termPatterns.flatMap fun tn =>
    (occList tn hex).map fun idx => idx / 2 + tn.length / 2)

/-- Count of the `repetitions` loop in `checkForRegularPatterns`: positions
`i = 0, stride, 2·stride, …` while `i < sample.length - stride*3`, counting
positions whose `stride`-wide window equals the next one. -/
def repCount (sample : List ℕ) (stride : ℕ) (i : ℕ) : ℕ :=
  if h : 0 < stride ∧ i < sample.length - 3 * stride then
    (if (sample.drop i).take stride = (sample.drop (i + stride)).take stride
     then 1 else 0) + repCount sample stride (i + stride)
  else 0
  termination_by sample.length - i
  decreasing_by omega

/-- Repetition rate for one stride: `repetitions / (sample.length / stride)`
(JavaScript float division, exact here over `ℚ`). -/
def repRate (sample : List ℕ) (stride : ℕ) : ℚ :=
  (repCount sample stride 0 : ℚ) / ((sample.length : ℚ) / (stride : ℚ))

/-- `checkForRegularPatterns`: 0 near the source edges, else the largest
repetition rate above 0.3 over the ±50-byte sample at strides 3 and 4. -/
def checkForRegularPatterns (u8 : List ℕ) (offset : ℕ) : ℚ :=
  if offset < 100 ∨ u8.length < offset + 100 then 0
  else
    let sample := (u8.take (offset + 50)).drop (offset - 50)
    let r3 := repRate sample 3
    let ps3 : ℚ := if 3/10 < r3 then max 0 r3 else 0
    let r4 := repRate sample 4
    if 3/10 < r4 then max ps3 r4 else ps3

/-- `validateContext`: 1 after any termination point, 0.8 inside the first
1024 header bytes, else one minus the pixel-pattern score. -/
def validateContext (u8 : List ℕ) (offset : ℕ) (tps : List ℕ) : ℚ :=
  if tps.any fun tp => tp < offset then 1
  else if offset < 1024 then 4/5
  else 1 - checkForRegularPatterns u8 offset

/-- JavaScript indexing `data[i]` for a possibly signed index: `none` is
`undefined`. -/
def jsAt (data : List ℕ) (i : ℤ) : Option ℕ :=
  if h : 0 ≤ i ∧ i.toNat < data.length then some (data.getD i.toNat 0) else none

/-- `validatePEExecutable`: DOS header, little-endian 32-bit PE-header
offset at byte 60 (a sign bit makes it negative), PE signature, machine
type; graceful degradation 0 → 0.1 → 0.3 → 0.5 → 0.9. -/
def validatePEExecutable (data : List ℕ) : ℚ :=
  if data.length < 64 then 0
  else if ¬(data.getD 0 0 = 0x4D ∧ data.getD 1 0 = 0x5A) then 0
  else
    let v : ℕ := data.getD 60 0 + data.getD 61 0 * 2 ^ 8 + data.getD 62 0 * 2 ^ 16 +
      data.getD 63 0 * 2 ^ 24
    let peOffset : ℤ := if v % 2 ^ 32 < 2 ^ 31 then (v % 2 ^ 32 : ℤ) else (v % 2 ^ 32 : ℤ) - 2 ^ 32
    if (data.length : ℤ) - 4 ≤ peOffset then 1/10
    else if ¬(jsAt data peOffset = some 0x50 ∧ jsAt data (peOffset + 1) = some 0x45) then 3/10
    else
      let machineType := (jsAt data (peOffset + 4)).getD 0 + (jsAt data (peOffset + 5)).getD 0 * 2 ^ 8
      if machineType = 0x14c ∨ machineType = 0x8664 ∨ machineType = 0x1c0 ∨
          machineType = 0x1c4 then 9/10
      else 1/2

/-- `validateZipStructure`: local-header bytes, version needed ≤ 63,
compression method in {0, 8, 14}, filename length in (0, 1000]. -/
def validateZipStructure (data : List ℕ) : ℚ :=
  if data.length < 30 then 0
  else if ¬(data.getD 0 0 = 0x50 ∧ data.getD 1 0 = 0x4B ∧ data.getD 2 0 = 3 ∧
      data.getD 3 0 = 4) then 0
  else if 63 < data.getD 4 0 + data.getD 5 0 * 2 ^ 8 then 1/5
  else if ¬(data.getD 8 0 + data.getD 9 0 * 2 ^ 8 = 0 ∨
      data.getD 8 0 + data.getD 9 0 * 2 ^ 8 = 8 ∨
      data.getD 8 0 + data.getD 9 0 * 2 ^ 8 = 14) then 3/10
  else if 1000 < data.getD 26 0 + data.getD 27 0 * 2 ^ 8 ∨
      data.getD 26 0 + data.getD 27 0 * 2 ^ 8 = 0 then 2/5
  else 4/5

/-- `validatePDFStructure`: the ASCII header `%PDF-` and a `digit.digit`
version token.  (The decoded header can match the regex only when bytes 5–7
are literally digit, dot, digit.) -/
def validatePDFStructure (data : List ℕ) : ℚ :=
  if data.length < 8 then 0
  else if ¬(data.getD 0 0 = 0x25 ∧ data.getD 1 0 = 0x50 ∧ data.getD 2 0 = 0x44 ∧
      data.getD 3 0 = 0x46 ∧ data.getD 4 0 = 0x2D) then 0
  else if (0x30 ≤ data.getD 5 0 ∧ data.getD 5 0 ≤ 0x39) ∧ data.getD 6 0 = 0x2E ∧
      (0x30 ≤ data.getD 7 0 ∧ data.getD 7 0 ≤ 0x39) then 7/10
  else 3/10

/-- `validateFileStructure`: dispatch on the signature (`4D5A` → PE,
`504B…` → ZIP, `25504446` → PDF, else the neutral 0.5) over the data from
the match offset on. -/
def validateFileStructure (u8 : List ℕ) (offset : ℕ) (sig : AppSigInfo) : ℚ :=
  let remainingData := u8.drop offset
  if sig.key = [4, 13, 5, 10] then validatePEExecutable remainingData
  else if sig.key.take 4 = [5, 0, 4, 11] then validateZipStructure remainingData
  else if sig.key = [2, 5, 5, 0, 4, 4, 4, 6] then validatePDFStructure remainingData
  else 1/2

/-- `getMinimumFileSize`: static floor per extension class, raised to the
mode's `minimumFileSize`. -/
def getMinimumFileSize (sig : AppSigInfo) (mode : Mode) : ℕ :=
  let m := modeMinimumFileSize mode
  if sig.ext.any fun e => e = "exe" ∨ e = "dll" then max 1024 m
  else if sig.ext.contains "zip" then max 22 m
  else if sig.ext.contains "pdf" then max 100 m
  else m

/-- `analyzeLocalEntropy` (this scanner's version, no guards): normalized
Shannon entropy of `data.slice(offset, offset + length)`; an empty sample
contributes no nonzero bucket, hence entropy 0. -/
noncomputable def analyzeLocalEntropy (u8 : List ℕ) (offset length : ℕ) : ℝ :=
  let sample := (u8.take (offset + length)).drop offset
  (∑ i ∈ Finset.range 256, entTerm ((sample.count i : ℝ) / (sample.length : ℝ))) / 8

/-- Outcome of `validateSignatureDetection`. -/
structure Validation where
  isValid : Prop
  confidence : ℝ
  risk : Risk

open Classical in
/-- `validateSignatureDetection`: weighted sum — 0.2 base match, 0.3 ×
context (flat 0.3 when context validation is off), 0.25 × structure (flat
0.25 outside conservative/balanced), 0.15 when at least the minimum
plausible size remains, 0.1 × local entropy — clamped to 1; valid when the
total reaches the mode threshold; risk from the extension class. -/
noncomputable def validateSignatureDetection (u8 : List ℕ) (offset : ℕ)
    (sig : AppSigInfo) (tps : List ℕ) (mode : Mode) : Validation :=
  let base : ℝ := 0.2
  let ctxPart : ℝ :=
    if ModeCtx mode then ((validateContext u8 offset tps : ℚ) : ℝ) * 0.3 else 0.3
  let structPart : ℝ :=
    if mode = .conservative ∨ mode = .balanced then
      ((validateFileStructure u8 offset sig : ℚ) : ℝ) * 0.25
    else 0.25
  let remaining := u8.length - offset
  let sizePart : ℝ := if getMinimumFileSize sig mode ≤ remaining then 0.15 else 0
  let entPart : ℝ := analyzeLocalEntropy u8 offset (min 1024 remaining) * 0.1
  let conf := min 1 (base + ctxPart + structPart + sizePart + entPart)
  { isValid := mode.threshold ≤ conf,
    confidence := conf,
    risk :=
      if sig.ext.any (fun e => e = "exe" ∨ e = "dll" ∨ e = "scr" ∨ e = "com") then .CRITICAL
      else if sig.ext.contains "zip" ∨ sig.ext.contains "rar" ∨ sig.ext.contains "7z" then .HIGH
      else if sig.ext.contains "pdf" ∨ sig.ext.contains "doc" ∨ sig.ext.contains "docx" then .MEDIUM
      else .LOW }

/-- An emitted finding: `signature` is the matched table pattern, or `none`
for the `'APPENDED_DATA'` marker record. -/
structure Finding where
  signature : Option (List ℕ)
  offset : ℕ
  confidence : ℝ
  risk : Risk

open Classical in
/-- The `detectedSignatures` accumulation: for every table signature, every
`indexOf` occurrence in the full hex stream is validated and pushed when
valid and above the mode threshold. -/
noncomputable def detectedSignatures (u8 : List ℕ) (mode : Mode) : List Finding :=
  let hex := nibbles u8
  let tps := findImageTerminationPoints u8
  appSigTable.flatMap fun sig =>
    (occList sig.key hex).filterMap fun idx =>
      let off := idx / 2
      let v := validateSignatureDetection u8 off sig tps mode
      if v.isValid ∧ mode.threshold ≤ v.confidence then
        some ⟨some sig.key, off, v.confidence, v.risk⟩
      else none

open Classical in
/-- Descending insertion by confidence. -/
noncomputable def insertDesc (f : Finding) : List Finding → List Finding
  | [] => [f]
  | g :: t =>
    if g.confidence ≤ f.confidence then f :: g :: t else g :: insertDesc f t

/-- `.sort((a, b) => b.confidence - a.confidence)` modelled as an insertion
sort (only the permutation property of the sort is used). -/
noncomputable def sortByConfDesc : List Finding → List Finding
  | [] => []
  | f :: t => insertDesc f (sortByConfDesc t)

open Classical in
/-- `analyzeFileSignatures` (this scanner): validate every raw match, filter
by the mode threshold and sort by confidence.  The transient appended-data
records pushed by `checkAppendedFiles` are overwritten by this assignment in
the source; they are modelled separately as `appendedDataFindings`. -/
noncomputable def analyzeFileSignaturesA (u8 : List ℕ) (mode : Mode) : List Finding :=
  sortByConfDesc ((detectedSignatures u8 mode).filter
    fun f => decide (mode.threshold ≤ f.confidence))

/-- `checkForKnownSignatures` (this scanner's version): any of eight common
patterns inside the hex stream of the first 100 bytes. -/
def checkForKnownSignaturesA (data : List ℕ) : Bool :=
  let hex := nibbles (data.take 100)
  [[4, 13, 5, 10], [5, 0, 4, 11, 0, 3, 0, 4], [5, 2, 6, 1, 7, 2, 2, 1],
   [3, 7, 7, 10, 11, 12, 10, 15, 2, 7, 1, 12], [2, 5, 5, 0, 4, 4, 4, 6],
   [15, 15, 13, 8, 15, 15], [8, 9, 5, 0, 4, 14, 4, 7],
   [4, 7, 4, 9, 4, 6]].any fun s => (findPrefixIdx s hex).isSome

open Classical in
/-- `validateAppendedData` (this scanner's version): null ratio over the
whole window, entropy over the first ≤ 1024 bytes, known signature within
the first 100 bytes. -/
noncomputable def validateAppendedDataA (data : List ℕ) : AppendedValidation :=
  let nullRatio : ℚ := ((data.count 0 : ℚ)) / ((data.length : ℚ))
  let base : ℝ := if 9/10 < nullRatio then 0.1 else if 7/10 < nullRatio then 0.3 else 0.6
  let ent := analyzeLocalEntropy data 0 (min 1024 data.length)
  let entB : ℝ := if 1/2 < ent then 0.3 else 0
  let hasSig := checkForKnownSignaturesA data
  let sigB : ℝ := if hasSig then 0.4 else 0
  ⟨min 1 (base + entB + sigB),
   if hasSig then .HIGH else .LOW⟩

open Classical in
/-- `checkAppendedFiles`: for each termination point with more than 100
bytes of source after it, a window of at least the mode's minimum size
(1000 conservative, else 100) is validated; a confidence at or above the
threshold yields an `'APPENDED_DATA'` finding. -/
noncomputable def appendedDataFindings (u8 : List ℕ) (mode : Mode) : List Finding :=
  (findImageTerminationPoints u8).filterMap fun tp =>
    if tp < u8.length - 100 then
      let remaining := u8.drop tp
      let minDataSize := if mode = .conservative then 1000 else 100
      if minDataSize ≤ remaining.length then
        let v := validateAppendedDataA remaining
        if mode.threshold ≤ v.confidence then
          some ⟨none, tp, v.confidence, v.risk⟩
        else none
      else none
    else none

end App

/-! ## Helper lemmas -/

@[simp]
lemma nibbles_nil : nibbles [] = [] := rfl

@[simp]
lemma nibbles_cons (b : ℕ) (t : List ℕ) :
    nibbles (b :: t) = b / 16 :: b % 16 :: nibbles t := rfl

lemma nibbles_append (a b : List ℕ) :
    nibbles (a ++ b) = nibbles a ++ nibbles b := by
  induction a with
  | nil => simp
  | cons x t ih => simp [ih]

lemma lastIdxOf_eq_none {v : ℕ} {l : List ℕ} (h : v ∉ l) :
    lastIdxOf v l = none := by
  induction l with
  | nil => rfl
  | cons a t ih =>
    simp only [List.mem_cons, not_or] at h
    rw [lastIdxOf, ih h.2]
    show (if a = v then some 0 else none) = none
    exact if_neg fun hv => h.1 hv.symm

lemma threshold_conservative : Mode.conservative.threshold = 0.8 := rfl

lemma threshold_balanced : Mode.balanced.threshold = 0.6 := rfl

lemma threshold_aggressive : Mode.aggressive.threshold = 0.4 := rfl

/-! ## C4: the JPEG terminator locator -/

/-- **C4.**  The claim states that for a JPEG hint the locator returns the
offset just past the last `FF D9` pair and the sentinel `-1` only when no
such pair exists.  On the two-byte source `FF D9` — a marker pair ending at
the final byte, the position it occupies in every well-formed JPEG — the
backward loop starts at index `length - 2 = 0`, never examines the final
byte, and returns the `-1` sentinel instead of `2`. -/
theorem c4_tail_terminator_missed :
    P0.jpegEndOffset [0xFF, 0xD9] = -1 ∧
    [0xFF, 0xD9].getD 0 0 = 0xFF ∧ [0xFF, 0xD9].getD 1 0 = 0xD9 ∧
    P0.jpegEndOffset [0, 0xFF, 0xD9] = -1 ∧
    P0.jpegEndOffset [0xFF, 0xD9, 0, 0] = 2 := by
  decide

/-! ## C10: degenerate sample-pairs input -/

lemma spCounts_eq_zero (pixels : List ℕ)
    (h : ∀ i ch, i % 4 = 0 → ch < 3 → i < pixels.length - 4 →
      i + 4 + ch < pixels.length →
      1 < ((pixels.getD (i + ch) 0 : ℤ) - (pixels.getD (i + 4 + ch) 0 : ℤ)).natAbs) :
    ∀ i, i % 4 = 0 → App.spCounts pixels i = (0, 0) := by
  have main : ∀ n i, pixels.length - i ≤ n → i % 4 = 0 →
      App.spCounts pixels i = (0, 0) := by
    intro n
    induction n with
    | zero =>
      intro i hle h4
      rw [App.spCounts]
      rw [if_neg (by omega)]
    | succ n ih =>
      intro i hle h4
      rw [App.spCounts]
      split
      case isTrue hlt =>
        have hch : ∀ ch, ch < 3 → App.spChannel pixels i ch = (0, 0) := by
          intro ch hch
          rw [App.spChannel]
          split
          case isTrue hin =>
            rw [if_neg (by have := h i ch h4 hch hlt hin; omega)]
          case isFalse => rfl
        simp only [hch 0 (by omega), hch 1 (by omega), hch 2 (by omega),
          ih (i + 4) (by omega) (by omega)]
      case isFalse => rfl
  intro i h4
  exact main (pixels.length - i) i le_rfl h4

/-- **C10.**  A pixel buffer in which no aligned adjacent same-channel pair
differs by at most 1 (buffers of fewer than two pixels vacuously included)
yields `ratio = 0` and `suspicious = true` from the sample-pairs analysis:
the degenerate case is flagged, not reported as neutral. -/
theorem c10_sample_pairs_degenerate (pixels : List ℕ)
    (h : ∀ i ch, i % 4 = 0 → ch < 3 → i < pixels.length - 4 →
      i + 4 + ch < pixels.length →
      1 < ((pixels.getD (i + ch) 0 : ℤ) - (pixels.getD (i + 4 + ch) 0 : ℤ)).natAbs) :
    (App.performSamplePairsAnalysis pixels).regularFraction = 0 ∧
    (App.performSamplePairsAnalysis pixels).suspicious = true := by
  have h0 := spCounts_eq_zero pixels h 0 rfl
  unfold App.performSamplePairsAnalysis
  rw [h0]
  norm_num

/-- Witness for C10 at a concrete buffer: two RGBA pixels whose channels
all differ by 10. -/
theorem c10_witness :
    (∀ i ch, i % 4 = 0 → ch < 3 → i < ([0, 0, 0, 0, 10, 10, 10, 0] : List ℕ).length - 4 →
      i + 4 + ch < ([0, 0, 0, 0, 10, 10, 10, 0] : List ℕ).length →
      1 < ((([0, 0, 0, 0, 10, 10, 10, 0] : List ℕ).getD (i + ch) 0 : ℤ) -
        (([0, 0, 0, 0, 10, 10, 10, 0] : List ℕ).getD (i + 4 + ch) 0 : ℤ)).natAbs) ∧
    (App.performSamplePairsAnalysis [0, 0, 0, 0, 10, 10, 10, 0]).regularFraction = 0 ∧
    (App.performSamplePairsAnalysis [0, 0, 0, 0, 10, 10, 10, 0]).suspicious = true := by
  have hh : ∀ i ch, i % 4 = 0 → ch < 3 → i < ([0, 0, 0, 0, 10, 10, 10, 0] : List ℕ).length - 4 →
      i + 4 + ch < ([0, 0, 0, 0, 10, 10, 10, 0] : List ℕ).length →
      1 < ((([0, 0, 0, 0, 10, 10, 10, 0] : List ℕ).getD (i + ch) 0 : ℤ) -
        (([0, 0, 0, 0, 10, 10, 10, 0] : List ℕ).getD (i + 4 + ch) 0 : ℤ)).natAbs := by
    intro i ch h4 hch hi hin
    simp only [List.length_cons, List.length_nil] at hi
    interval_cases i <;> interval_cases ch <;>
      first
      | exact absurd h4 (by decide)
      | decide
  exact ⟨hh, c10_sample_pairs_degenerate _ hh⟩

/-! ## C6: the standard-LSB round trip -/

lemma byteBits_lt_two (c : ℕ) : ∀ b ∈ App.byteBits c, b < 2 := by
  simp only [App.byteBits, List.mem_cons, List.not_mem_nil, or_false]
  rintro b (rfl | rfl | rfl | rfl | rfl | rfl | rfl | rfl) <;> omega

lemma byteVal_byteBits (c : ℕ) (h : c < 256) :
    App.byteVal (App.byteBits c) = c := by
  simp only [App.byteVal, App.byteBits, List.foldl_cons, List.foldl_nil]
  omega

lemma bitsOfBytes_lt_two (bs : List ℕ) : ∀ b ∈ App.bitsOfBytes bs, b < 2 := by
  intro b hb
  simp only [App.bitsOfBytes, List.mem_flatMap] at hb
  obtain ⟨c, _, hc⟩ := hb
  exact byteBits_lt_two c b hc

lemma length_bitsOfBytes (bs : List ℕ) :
    (App.bitsOfBytes bs).length = 8 * bs.length := by
  induction bs with
  | nil => rfl
  | cons c t ih =>
    simp only [App.bitsOfBytes, List.flatMap_cons, List.length_append] at *
    simp [App.byteBits, ih]
    ring

lemma bytesOfBits_byteBits (c : ℕ) (h : c < 256) (rest : List ℕ) :
    App.bytesOfBits (App.byteBits c ++ rest) = c :: App.bytesOfBits rest := by
  simp only [App.byteBits, List.cons_append, List.nil_append]
  rw [App.bytesOfBits]
  rw [show [c / 128 % 2, c / 64 % 2, c / 32 % 2, c / 16 % 2, c / 8 % 2,
    c / 4 % 2, c / 2 % 2, c % 2] = App.byteBits c from rfl, byteVal_byteBits c h]

lemma bytesOfBits_bitsOfBytes (bs : List ℕ) (h : ∀ c ∈ bs, c < 256)
    (rest : List ℕ) :
    App.bytesOfBits (App.bitsOfBytes bs ++ rest) = bs ++ App.bytesOfBits rest := by
  induction bs with
  | nil => simp [App.bitsOfBytes]
  | cons c t ih =>
    have hbb : App.bitsOfBytes (c :: t) = App.byteBits c ++ App.bitsOfBytes t := by
      simp [App.bitsOfBytes]
    rw [hbb, List.append_assoc,
      bytesOfBits_byteBits c (h c (List.mem_cons_self c t)) _,
      ih fun x hx => h x (List.mem_cons_of_mem c hx)]
    rfl

lemma asciiBytes_printable (msg junk : List ℕ)
    (h : ∀ c ∈ msg, 32 ≤ c ∧ c ≤ 126) :
    App.asciiBytes (msg ++ 0 :: junk) = msg := by
  induction msg with
  | nil =>
    rw [List.nil_append, App.asciiBytes]
    norm_num
  | cons c t ih =>
    rw [List.cons_append, App.asciiBytes,
      if_pos (h c (List.mem_cons_self c t)),
      ih fun x hx => h x (List.mem_cons_of_mem c hx)]

lemma mem_of_getLast?_eq_some {l : List ℕ} {c : ℕ} (h : l.getLast? = some c) :
    c ∈ l := by
  obtain ⟨hne, hc⟩ := List.mem_getLast?_eq_getLast (show c ∈ l.getLast? by simp [h, Option.mem_def])
  exact hc ▸ List.getLast_mem hne

lemma dropWhile_eq_self_of_head {p : ℕ → Bool} {l : List ℕ}
    (h : ∀ c, l.head? = some c → p c = false) : l.dropWhile p = l := by
  cases l with
  | nil => rfl
  | cons a t => simp [List.dropWhile_cons, h a rfl]

lemma jsTrim_eq_self (l : List ℕ)
    (hh : ∀ c, l.head? = some c → App.isJsWs c = false)
    (hl : ∀ c, l.getLast? = some c → App.isJsWs c = false) :
    App.jsTrim l = l := by
  unfold App.jsTrim
  rw [dropWhile_eq_self_of_head hh,
    dropWhile_eq_self_of_head (fun c hc => hl c (by rwa [List.head?_reverse] at hc)),
    List.reverse_reverse]

lemma extract_quad (x1 x2 x3 x4 : ℕ) (rest : List ℕ) :
    App.extractStandardLSB (x1 :: x2 :: x3 :: x4 :: rest) =
      x1 % 2 :: x2 % 2 :: x3 % 2 :: App.extractStandardLSB rest := rfl

lemma setLSB_mod_two (v b : ℕ) (hb : b < 2) : App.setLSB v b % 2 = b := by
  unfold App.setLSB
  omega

lemma embedGo_nil_bits (cover : List ℕ) (k : ℕ) :
    App.embedBits.go [] cover k = cover := by
  cases cover <;> rfl

lemma embedGo_rgb (b0 : ℕ) (bs : List ℕ) (c : ℕ) (cs : List ℕ) (k : ℕ)
    (hk : ¬k % 4 = 3) :
    App.embedBits.go (b0 :: bs) (c :: cs) k =
      App.setLSB c b0 :: App.embedBits.go bs cs (k + 1) := by
  rw [App.embedBits.go, if_neg hk]

lemma embedGo_alpha (bits : List ℕ) (c : ℕ) (cs : List ℕ) (k : ℕ)
    (hk : k % 4 = 3) :
    App.embedBits.go bits (c :: cs) k = c :: App.embedBits.go bits cs (k + 1) := by
  cases bits with
  | nil => rw [embedGo_nil_bits, embedGo_nil_bits]
  | cons b bs => rw [App.embedBits.go, if_pos hk]

lemma extract_embedGo :
    ∀ (n : ℕ) (cover bits : List ℕ) (k : ℕ), cover.length ≤ n → k % 4 = 0 →
      (∀ b ∈ bits, b < 2) → cover.length % 4 = 0 →
      bits.length ≤ 3 * (cover.length / 4) →
      ∃ junk, App.extractStandardLSB (App.embedBits.go bits cover k) = bits ++ junk := by
  intro n
  induction n with
  | zero =>
    intro cover bits k hn _ _ _ hlen
    have hc : cover = [] := List.length_eq_zero.mp (by omega)
    have hb : bits = [] := List.length_eq_zero.mp (by subst hc; simpa using hlen)
    subst hc hb
    exact ⟨[], by rw [embedGo_nil_bits]; simp [App.extractStandardLSB]⟩
  | succ n ih =>
    intro cover bits k hn hk hb h4 hlen
    rcases cover with _ | ⟨r, _ | ⟨g, _ | ⟨b, _ | ⟨a, rest⟩⟩⟩⟩
    · have hbnil : bits = [] := List.length_eq_zero.mp (by simpa using hlen)
      subst hbnil
      exact ⟨[], by rw [embedGo_nil_bits]; simp [App.extractStandardLSB]⟩
    · exact absurd h4 (by simp)
    · exact absurd h4 (by simp)
    · exact absurd h4 (by simp)
    · have hrest4 : rest.length % 4 = 0 := by
        simp only [List.length_cons] at h4
        omega
      have hrestn : rest.length ≤ n := by
        simp only [List.length_cons] at hn
        omega
      rcases bits with _ | ⟨b0, _ | ⟨b1, _ | ⟨b2, bs⟩⟩⟩
      · refine ⟨r % 2 :: g % 2 :: b % 2 :: App.extractStandardLSB rest, ?_⟩
        rw [embedGo_nil_bits, extract_quad, List.nil_append]
      · refine ⟨g % 2 :: b % 2 :: App.extractStandardLSB rest, ?_⟩
        rw [embedGo_rgb b0 [] r _ k (by omega), embedGo_nil_bits, extract_quad,
          setLSB_mod_two r b0 (hb b0 (by simp))]
        rfl
      · refine ⟨b % 2 :: App.extractStandardLSB rest, ?_⟩
        rw [embedGo_rgb b0 _ r _ k (by omega),
          embedGo_rgb b1 [] g _ (k + 1) (by omega), embedGo_nil_bits, extract_quad,
          setLSB_mod_two r b0 (hb b0 (by simp)),
          setLSB_mod_two g b1 (hb b1 (by simp))]
        rfl
      · have hbs : ∀ x ∈ bs, x < 2 := by
          intro x hx
          exact hb x (by simp [hx])
        have hbslen : bs.length ≤ 3 * (rest.length / 4) := by
          simp only [List.length_cons] at hlen ⊢
          omega
        obtain ⟨junk, hjunk⟩ := ih rest bs (k + 4) hrestn (by omega) hbs hrest4 hbslen
        refine ⟨junk, ?_⟩
        rw [embedGo_rgb b0 _ r _ k (by omega),
          embedGo_rgb b1 _ g _ (k + 1) (by omega),
          embedGo_rgb b2 _ b _ (k + 2) (by omega),
          embedGo_alpha bs a _ (k + 3) (by omega), extract_quad,
          setLSB_mod_two r b0 (hb b0 (by simp)),
          setLSB_mod_two g b1 (hb b1 (by simp)),
          setLSB_mod_two b b2 (hb b2 (by simp)), hjunk]
        rfl

/-- **C6 (amended).**  Embedding a printable-ASCII message by the standard
method into an RGBA cover with enough capacity and extracting with
`extractStandardLSB` followed by `binaryToASCII` recovers the message
*after `trim()`*; since the message neither starts nor ends with a space
here, the recovery is exact.  (The unamended claim fails for messages with
leading or trailing spaces — see the counterexample.) -/
theorem c6_lsb_round_trip (msg cover : List ℕ)
    (hmsg : ∀ c ∈ msg, 32 ≤ c ∧ c ≤ 126)
    (hhead : ∀ c, msg.head? = some c → c ≠ 32)
    (hlast : ∀ c, msg.getLast? = some c → c ≠ 32)
    (h4 : cover.length % 4 = 0)
    (hcap : 8 * (msg.length + 1) ≤ 3 * (cover.length / 4)) :
    App.binaryToASCII (App.extractStandardLSB (App.embedStandardLSB msg cover)) = msg := by
  have hbytes : ∀ c ∈ msg ++ [0], c < 256 := by
    intro c hc
    rcases List.mem_append.mp hc with hc | hc
    · have := hmsg c hc
      omega
    · simp only [List.mem_singleton] at hc
      omega
  have hbits : ∀ b ∈ App.bitsOfBytes (msg ++ [0]), b < 2 := bitsOfBytes_lt_two _
  have hlen : (App.bitsOfBytes (msg ++ [0])).length ≤ 3 * (cover.length / 4) := by
    rw [length_bitsOfBytes]
    simpa using hcap
  obtain ⟨junk, hjunk⟩ := extract_embedGo cover.length cover
    (App.bitsOfBytes (msg ++ [0])) 0 le_rfl rfl hbits h4 hlen
  unfold App.embedStandardLSB App.embedBits at *
  rw [hjunk]
  unfold App.binaryToASCII
  rw [bytesOfBits_bitsOfBytes _ hbytes, List.append_assoc, List.singleton_append,
    asciiBytes_printable msg _ hmsg]
  refine jsTrim_eq_self msg ?_ ?_
  · intro c hc
    have h1 := hmsg c (by cases msg with
      | nil => simp at hc
      | cons a t =>
        simp only [List.head?_cons, Option.some.injEq] at hc
        simp [hc.symm])
    have h2 := hhead c hc
    simp only [App.isJsWs, decide_eq_false_iff_not]
    omega
  · intro c hc
    have h1 := hmsg c (mem_of_getLast?_eq_some hc)
    have h2 := hlast c hc
    simp only [App.isJsWs, decide_eq_false_iff_not]
    omega

/-- Counterexample to the unamended C6: the printable message `" hi"`
(codes 32, 104, 105) embedded into an 11-pixel RGBA cover comes back as
`"hi"` — `binaryToASCII` trims the leading space, so the exact original
message is not recovered. -/
theorem c6_counterexample :
    (∀ c ∈ ([32, 104, 105] : List ℕ), 32 ≤ c ∧ c ≤ 126) ∧
    App.binaryToASCII (App.extractStandardLSB
      (App.embedStandardLSB [32, 104, 105] (List.replicate 44 0))) = [104, 105] ∧
    ([104, 105] : List ℕ) ≠ [32, 104, 105] := by
  refine ⟨by decide, by decide, by decide⟩

/-- Witness for the amended round trip: the message `"hi"` through a
12-pixel all-zero cover. -/
theorem c6_witness :
    (∀ c ∈ ([104, 105] : List ℕ), 32 ≤ c ∧ c ≤ 126) ∧
    App.binaryToASCII (App.extractStandardLSB
      (App.embedStandardLSB [104, 105] (List.replicate 48 0))) = [104, 105] :=
  ⟨by decide,
   c6_lsb_round_trip [104, 105] (List.replicate 48 0) (by decide)
     (by decide) (by decide) (by decide) (by decide)⟩

/-! ## C5: the Chi-Square test -/

lemma ChiHist.bump_sums (h : App.ChiHist) (rb gb bb : ℕ) :
    ((h.bump rb gb bb).r0 + (h.bump rb gb bb).r1 = h.r0 + h.r1 + 1) ∧
    ((h.bump rb gb bb).g0 + (h.bump rb gb bb).g1 = h.g0 + h.g1 + 1) ∧
    ((h.bump rb gb bb).b0 + (h.bump rb gb bb).b1 = h.b0 + h.b1 + 1) := by
  unfold App.ChiHist.bump
  refine ⟨?_, ?_, ?_⟩ <;> dsimp only <;> split <;> omega

lemma chiHist_sums (pixels : List ℕ) (h4 : pixels.length % 4 = 0) :
    ((App.chiHist pixels).r0 + (App.chiHist pixels).r1 = pixels.length / 4) ∧
    ((App.chiHist pixels).g0 + (App.chiHist pixels).g1 = pixels.length / 4) ∧
    ((App.chiHist pixels).b0 + (App.chiHist pixels).b1 = pixels.length / 4) := by
  have main : ∀ n pixels, List.length pixels ≤ n → pixels.length % 4 = 0 →
      ((App.chiHist pixels).r0 + (App.chiHist pixels).r1 = pixels.length / 4) ∧
      ((App.chiHist pixels).g0 + (App.chiHist pixels).g1 = pixels.length / 4) ∧
      ((App.chiHist pixels).b0 + (App.chiHist pixels).b1 = pixels.length / 4) := by
    intro n
    induction n with
    | zero =>
      intro pixels hn h4
      have : pixels = [] := List.length_eq_zero.mp (by omega)
      subst this
      simp [App.chiHist]
    | succ n ih =>
      intro pixels hn h4
      rcases pixels with _ | ⟨a, _ | ⟨b, _ | ⟨c, _ | ⟨d, rest⟩⟩⟩⟩
      · simp [App.chiHist]
      · exact absurd h4 (by simp)
      · exact absurd h4 (by simp)
      · exact absurd h4 (by simp)
      · have hr4 : rest.length % 4 = 0 := by
          simp only [List.length_cons] at h4
          omega
        have hrn : rest.length ≤ n := by
          simp only [List.length_cons] at hn
          omega
        obtain ⟨ihr, ihg, ihb⟩ := ih rest hrn hr4
        rw [show App.chiHist (a :: b :: c :: d :: rest) =
          (App.chiHist rest).bump (a % 2) (b % 2) (c % 2) from rfl]
        obtain ⟨hbr, hbg, hbb⟩ :=
          ChiHist.bump_sums (App.chiHist rest) (a % 2) (b % 2) (c % 2)
        refine ⟨?_, ?_, ?_⟩ <;> simp only [List.length_cons] <;> omega
  exact main pixels.length pixels le_rfl h4

lemma chiSquareStat_balanced (pixels : List ℕ) (h4 : pixels.length % 4 = 0)
    (hr : (App.chiHist pixels).r0 = (App.chiHist pixels).r1)
    (hg : (App.chiHist pixels).g0 = (App.chiHist pixels).g1)
    (hb : (App.chiHist pixels).b0 = (App.chiHist pixels).b1) :
    App.chiSquareStat pixels = 0 := by
  obtain ⟨hsr, hsg, hsb⟩ := chiHist_sums pixels h4
  unfold App.chiSquareStat
  dsimp only
  have hlen : (pixels.length : ℚ) = 4 * (pixels.length / 4 : ℕ) := by
    exact_mod_cast congrArg (Nat.cast (R := ℚ)) (show pixels.length = 4 * (pixels.length / 4) by omega)
  have he : (pixels.length : ℚ) / 4 / 2 = ((pixels.length / 4 : ℕ) : ℚ) / 2 := by
    rw [hlen]
    ring
  have hr0 : ((App.chiHist pixels).r0 : ℚ) = ((pixels.length / 4 : ℕ) : ℚ) / 2 := by
    have : (App.chiHist pixels).r0 + (App.chiHist pixels).r0 = pixels.length / 4 := by
      omega
    have := congrArg (Nat.cast (R := ℚ)) this
    push_cast at this
    linarith
  have hr1 : ((App.chiHist pixels).r1 : ℚ) = ((pixels.length / 4 : ℕ) : ℚ) / 2 := by
    rw [← hr]
    exact hr0
  have hg0 : ((App.chiHist pixels).g0 : ℚ) = ((pixels.length / 4 : ℕ) : ℚ) / 2 := by
    have : (App.chiHist pixels).g0 + (App.chiHist pixels).g0 = pixels.length / 4 := by
      omega
    have := congrArg (Nat.cast (R := ℚ)) this
    push_cast at this
    linarith
  have hg1 : ((App.chiHist pixels).g1 : ℚ) = ((pixels.length / 4 : ℕ) : ℚ) / 2 := by
    rw [← hg]
    exact hg0
  have hb0 : ((App.chiHist pixels).b0 : ℚ) = ((pixels.length / 4 : ℕ) : ℚ) / 2 := by
    have : (App.chiHist pixels).b0 + (App.chiHist pixels).b0 = pixels.length / 4 := by
      omega
    have := congrArg (Nat.cast (R := ℚ)) this
    push_cast at this
    linarith
  have hb1 : ((App.chiHist pixels).b1 : ℚ) = ((pixels.length / 4 : ℕ) : ℚ) / 2 := by
    rw [← hb]
    exact hb0
  rw [hr0, hr1, hg0, hg1, hb0, hb1, he]
  ring

lemma chiSquareStat_all_zero (pixels : List ℕ) (h4 : pixels.length % 4 = 0)
    (hlen : 32 ≤ pixels.length)
    (hr : (App.chiHist pixels).r1 = 0) (hg : (App.chiHist pixels).g1 = 0)
    (hb : (App.chiHist pixels).b1 = 0) :
    App.chiSquareStat pixels = 3 * ((pixels.length / 4 : ℕ) : ℚ) := by
  obtain ⟨hsr, hsg, hsb⟩ := chiHist_sums pixels h4
  unfold App.chiSquareStat
  dsimp only
  have hn : (8 : ℕ) ≤ pixels.length / 4 := by omega
  have hlen4 : (pixels.length : ℚ) = 4 * (pixels.length / 4 : ℕ) := by
    exact_mod_cast congrArg (Nat.cast (R := ℚ)) (show pixels.length = 4 * (pixels.length / 4) by omega)
  have hr0 : (App.chiHist pixels).r0 = pixels.length / 4 := by omega
  have hg0 : (App.chiHist pixels).g0 = pixels.length / 4 := by omega
  have hb0 : (App.chiHist pixels).b0 = pixels.length / 4 := by omega
  rw [hr0, hg0, hb0, hr, hg, hb, hlen4]
  have hne : ((pixels.length / 4 : ℕ) : ℚ) ≠ 0 := by
    have : (0 : ℚ) < ((pixels.length / 4 : ℕ) : ℚ) := by
      exact_mod_cast Nat.lt_of_lt_of_le (by norm_num) hn
    exact ne_of_gt this
  field_simp
  ring

/-- **C5.**  The Chi-Square test flags suspicious exactly when its
approximate p-value is below 0.05; an exact per-channel 50/50 LSB split
yields χ² = 0, p = 1/2, and no flag; all-zero LSBs on a buffer of at least
8 pixels yield χ² = 3n and a p-value below 0.05, hence a flag. -/
theorem c5_chi_square (pixels : List ℕ) :
    ((App.performChiSquareTest pixels).suspicious ↔
      (App.performChiSquareTest pixels).pValue < 0.05) ∧
    (pixels.length % 4 = 0 →
      (App.chiHist pixels).r0 = (App.chiHist pixels).r1 →
      (App.chiHist pixels).g0 = (App.chiHist pixels).g1 →
      (App.chiHist pixels).b0 = (App.chiHist pixels).b1 →
      ¬(App.performChiSquareTest pixels).suspicious) ∧
    (pixels.length % 4 = 0 → 32 ≤ pixels.length →
      (App.chiHist pixels).r1 = 0 → (App.chiHist pixels).g1 = 0 →
      (App.chiHist pixels).b1 = 0 →
      (App.performChiSquareTest pixels).suspicious) := by
  refine ⟨Iff.rfl, ?_, ?_⟩
  · intro h4 hr hg hb
    show ¬((1 : ℝ) - App.chiSquareCDF ((App.chiSquareStat pixels : ℚ) : ℝ) 5 < 0.05)
    rw [chiSquareStat_balanced pixels h4 hr hg hb]
    unfold App.chiSquareCDF
    push_cast
    rw [show (2 : ℝ) * 0 / 5 = 0 by ring, Real.sqrt_zero, neg_zero, Real.exp_zero]
    norm_num
  · intro h4 hlen hr hg hb
    show (1 : ℝ) - App.chiSquareCDF ((App.chiSquareStat pixels : ℚ) : ℝ) 5 < 0.05
    rw [chiSquareStat_all_zero pixels h4 hlen hr hg hb]
    unfold App.chiSquareCDF
    set n : ℕ := pixels.length / 4 with hn
    have hn8 : (8 : ℕ) ≤ n := by omega
    have hcast : (((3 * (n : ℚ)) : ℚ) : ℝ) = 3 * (n : ℝ) := by push_cast; ring
    rw [hcast]
    set x : ℝ := Real.sqrt (2 * (3 * (n : ℝ)) / 5) with hx
    have hx3 : (3 : ℝ) ≤ x := by
      rw [hx]
      have h9 : (9 : ℝ) ≤ 2 * (3 * (n : ℝ)) / 5 := by
        have : (8 : ℝ) ≤ (n : ℝ) := by exact_mod_cast hn8
        nlinarith
      nlinarith [Real.sq_sqrt (by linarith : (0:ℝ) ≤ 2 * (3 * (n : ℝ)) / 5),
        Real.sqrt_nonneg (2 * (3 * (n : ℝ)) / 5)]
    have ht : Real.exp (-x) < 1 / 19 := by
      have h1 : Real.exp (-x) ≤ Real.exp (-3) := by
        apply Real.exp_le_exp.mpr
        linarith
      have h2 : Real.exp (-3) = 1 / Real.exp 3 := by
        rw [Real.exp_neg]
        ring
      have h3 : (19 : ℝ) < Real.exp 3 := by
        have he1 : (2.7182818283 : ℝ) < Real.exp 1 := Real.exp_one_gt_d9
        have h31 : Real.exp 3 = Real.exp 1 ^ (3 : ℕ) := by
          rw [← Real.exp_nat_mul]
          norm_num
        have hpow : (2.7182818283 : ℝ) ^ (3 : ℕ) < Real.exp 1 ^ (3 : ℕ) :=
          pow_lt_pow_left he1 (by norm_num) (by norm_num)
        have hval : (19 : ℝ) < (2.7182818283 : ℝ) ^ (3 : ℕ) := by norm_num
        rw [h31]
        linarith
      have hp : (0 : ℝ) < Real.exp 3 := Real.exp_pos 3
      rw [h2] at h1
      have : 1 / Real.exp 3 < 1 / 19 := by
        apply div_lt_div_of_pos_left <;> linarith
      linarith
    have htpos : (0 : ℝ) < Real.exp (-x) := Real.exp_pos _
    have hd : (0 : ℝ) < 1 + Real.exp (-x) := by linarith
    rw [show (1 : ℝ) - 1 / (1 + Real.exp (-x)) = Real.exp (-x) / (1 + Real.exp (-x)) by
      field_simp]
    rw [div_lt_iff hd]
    nlinarith

/-- Witness for C5: the two-pixel buffer `[0,0,0,0, 1,1,1,0]` has an exact
per-channel 50/50 LSB split and is not flagged; the 8-pixel all-zero buffer
is flagged. -/
theorem c5_witness :
    (([0, 0, 0, 0, 1, 1, 1, 0] : List ℕ).length % 4 = 0 ∧
      (App.chiHist [0, 0, 0, 0, 1, 1, 1, 0]).r0 = (App.chiHist [0, 0, 0, 0, 1, 1, 1, 0]).r1 ∧
      (App.chiHist [0, 0, 0, 0, 1, 1, 1, 0]).g0 = (App.chiHist [0, 0, 0, 0, 1, 1, 1, 0]).g1 ∧
      (App.chiHist [0, 0, 0, 0, 1, 1, 1, 0]).b0 = (App.chiHist [0, 0, 0, 0, 1, 1, 1, 0]).b1 ∧
      ¬(App.performChiSquareTest [0, 0, 0, 0, 1, 1, 1, 0]).suspicious) ∧
    ((List.replicate 32 (0 : ℕ)).length % 4 = 0 ∧ 32 ≤ (List.replicate 32 (0 : ℕ)).length ∧
      (App.chiHist (List.replicate 32 0)).r1 = 0 ∧
      (App.chiHist (List.replicate 32 0)).g1 = 0 ∧
      (App.chiHist (List.replicate 32 0)).b1 = 0 ∧
      (App.performChiSquareTest (List.replicate 32 0)).suspicious) :=
  ⟨⟨by decide, by decide, by decide, by decide,
    (c5_chi_square [0, 0, 0, 0, 1, 1, 1, 0]).2.1 (by decide) (by decide) (by decide) (by decide)⟩,
   ⟨by decide, by decide, by decide, by decide, by decide,
    (c5_chi_square (List.replicate 32 0)).2.2 (by decide) (by decide) (by decide)
      (by decide) (by decide)⟩⟩

/-! ## The region scanner: structural lemmas -/

namespace P0

/-- De-duplication key of a hit. -/
def hitKey (h : Hit) : List ℕ × ℕ := (h.signature, h.offset)

lemma mem_dedupHits_go : ∀ (l : List Hit) (seen : List (List ℕ × ℕ)) (h : Hit),
    h ∈ dedupHits.go seen l → h ∈ l := by
  intro l
  induction l with
  | nil => intro seen h hh; simpa [dedupHits.go] using hh
  | cons x t ih =>
    intro seen h hh
    rw [dedupHits.go] at hh
    split at hh
    · exact List.mem_cons_of_mem x (ih _ h hh)
    · rcases List.mem_cons.mp hh with rfl | hh
      · exact List.mem_cons_self _ _
      · exact List.mem_cons_of_mem x (ih _ h hh)

lemma mem_dedupHits {l : List Hit} {h : Hit} (hh : h ∈ dedupHits l) : h ∈ l :=
  mem_dedupHits_go l [] h hh

lemma dedupHits_go_spec : ∀ (l : List Hit) (seen : List (List ℕ × ℕ)),
    ((dedupHits.go seen l).map hitKey).Nodup ∧
    ∀ h ∈ dedupHits.go seen l, hitKey h ∉ seen := by
  intro l
  induction l with
  | nil => intro seen; constructor <;> simp [dedupHits.go]
  | cons x t ih =>
    intro seen
    rw [dedupHits.go]
    split
    case isTrue hx =>
      exact ih seen
    case isFalse hx =>
      obtain ⟨ihnd, ihseen⟩ := ih ((x.signature, x.offset) :: seen)
      constructor
      · rw [List.map_cons, List.nodup_cons]
        refine ⟨?_, ihnd⟩
        intro hmem
        obtain ⟨h, hh, hkey⟩ := List.mem_map.mp hmem
        exact ihseen h hh (hkey ▸ List.mem_cons_self _ _)
      · intro h hh
        rcases List.mem_cons.mp hh with rfl | hh
        · exact hx
        · exact fun hs => ihseen h hh (List.mem_cons_of_mem _ hs)

lemma dedupHits_nodup_keys (l : List Hit) : ((dedupHits l).map hitKey).Nodup :=
  (dedupHits_go_spec l []).1

lemma countP_le_one_of_nodup_keys {l : List Hit}
    (hnd : (l.map hitKey).Nodup) (sig : List ℕ) (off : ℕ) :
    l.countP (fun h => decide (h.signature = sig ∧ h.offset = off)) ≤ 1 := by
  induction l with
  | nil => simp
  | cons x t ih =>
    rw [List.map_cons, List.nodup_cons] at hnd
    rw [List.countP_cons]
    rcases hx : decide (x.signature = sig ∧ x.offset = off) with _ | _
    · simpa using ih hnd.2
    · have hxe := of_decide_eq_true hx
      have ht : t.countP (fun h => decide (h.signature = sig ∧ h.offset = off)) = 0 := by
        rw [List.countP_eq_zero]
        intro h hh hpred
        have hpe := of_decide_eq_true hpred
        refine hnd.1 (List.mem_map.mpr ⟨h, hh, ?_⟩)
        unfold hitKey
        rw [hpe.1, hpe.2, ← hxe.1, ← hxe.2]
      rw [ht]
      simp

lemma mem_processRegion {u8 : List ℕ} {θ : ℝ} {r : Region} {f : Hit}
    (h : f ∈ processRegion u8 θ r) :
    r.start < u8.length ∧ f ∈ regionHits u8 r.start r.kind := by
  obtain ⟨start, kind⟩ := r
  unfold processRegion at h
  dsimp only at h ⊢
  split at h
  · exact absurd h (List.not_mem_nil f)
  case isFalse hlt =>
    refine ⟨by omega, ?_⟩
    cases kind with
    | appended =>
      by_cases hs : strongAppended u8 θ start
      · rwa [if_pos hs] at h
      · rw [if_neg hs] at h
        exact absurd h (List.not_mem_nil f)
    | fullSkipHeader => exact h
    | full => exact h

lemma mem_regionHits {u8 : List ℕ} {start : ℕ} {via : RegionKind} {f : Hit}
    (h : f ∈ regionHits u8 start via) :
    ∃ e ∈ sigTable, ∃ idx,
      findPrefixIdx e.key
        (nibbles ((u8.drop start).take (min (u8.drop start).length (256 * 1024)))) =
        some idx ∧
      ¬(u8.length - (start + idx / 2) < e.minSize) ∧
      f = ⟨e.key, start + idx / 2, e.ext, e.risk, via⟩ := by
  unfold regionHits at h
  obtain ⟨e, he, hfe⟩ := List.mem_filterMap.mp h
  refine ⟨e, he, ?_⟩
  rcases hidx : findPrefixIdx e.key
      (nibbles ((u8.drop start).take (min (u8.drop start).length (256 * 1024)))) with
    _ | idx
  · rw [hidx] at hfe
    exact absurd hfe (by simp)
  · rw [hidx] at hfe
    dsimp only at hfe
    split at hfe
    · exact absurd hfe (by simp)
    case isFalse hsz =>
      exact ⟨idx, rfl, hsz, (Option.some.injEq _ _ ▸ hfe).symm⟩

lemma findings_eq (u8 : List ℕ) (hint : FormatHint) (mode : Mode) :
    (analyzeFileSignatures u8 hint mode).findings =
      dedupHits ((regionsFor u8 hint mode).flatMap (processRegion u8 mode.threshold)) := by
  unfold analyzeFileSignatures
  rfl

lemma threatLevel_eq (u8 : List ℕ) (hint : FormatHint) (mode : Mode) :
    (analyzeFileSignatures u8 hint mode).threatLevel =
      threatOf (analyzeFileSignatures u8 hint mode).findings := by
  unfold analyzeFileSignatures
  rfl

lemma mem_findings {u8 : List ℕ} {hint : FormatHint} {mode : Mode} {f : Hit}
    (h : f ∈ (analyzeFileSignatures u8 hint mode).findings) :
    ∃ r ∈ regionsFor u8 hint mode, r.start < u8.length ∧
      f ∈ regionHits u8 r.start r.kind := by
  unfold analyzeFileSignatures at h
  dsimp only at h
  obtain ⟨r, hr, hpr⟩ := List.mem_flatMap.mp (mem_dedupHits h)
  obtain ⟨hlt, hrh⟩ := mem_processRegion hpr
  exact ⟨r, hr, hlt, hrh⟩

end P0

/-! ## C2: the minimum-plausible-size invariant -/

/-- **C2.**  Every finding emitted by the region scanner whose signature
record carries a `minSize` leaves at least that many bytes after its offset:
`offset + minPlausibleSize ≤ sourceLength`.  (All of this scanner's table
records carry `minSize`; the quantification over table entries matching the
finding's signature expresses "the Finding's signature record".) -/
theorem c2_min_plausible_size (u8 : List ℕ) (hint : FormatHint) (mode : Mode)
    (f : P0.Hit) (hf : f ∈ (P0.analyzeFileSignatures u8 hint mode).findings)
    (e : P0.SigEntry) (he : e ∈ P0.sigTable) (hk : e.key = f.signature) :
    f.offset + e.minSize ≤ u8.length := by
  obtain ⟨r, _, _, hrh⟩ := P0.mem_findings hf
  obtain ⟨e', he', idx, _, hsz, hfe⟩ := P0.mem_regionHits hrh
  have hnd : (P0.sigTable.map P0.SigEntry.key).Nodup := by decide
  have hee : e = e' := by
    refine List.inj_on_of_nodup_map hnd he he' ?_
    rw [hk, hfe]
  have hpos : 0 < e'.minSize := by
    have hall : ∀ x ∈ P0.sigTable, 0 < x.minSize := by decide
    exact hall e' he'
  subst hee
  rw [hfe]
  dsimp only
  omega

/-! ## C7: de-duplication by (signature, offset) -/

/-- **C7 (amended).**  The analysis never returns two findings with the same
(signature, offset): every such pair is reported at most once.  (The
unamended "exactly one" fails: the scanner records only the first `indexOf`
match of each signature per region, so a pattern present at a later offset
in both regions yields no finding at all — see the counterexample.) -/
theorem c7_dedup_at_most_one (u8 : List ℕ) (hint : FormatHint) (mode : Mode)
    (sig : List ℕ) (off : ℕ) :
    (P0.analyzeFileSignatures u8 hint mode).findings.countP
      (fun h => decide (h.signature = sig ∧ h.offset = off)) ≤ 1 := by
  exact P0.countP_le_one_of_nodup_keys (P0.dedupHits_nodup_keys _) sig off

/-! ## Concrete scanner inputs -/

/-- A 4097-byte source with GIF type hint: an MZ signature at offset 0,
`0x41` padding, and no `0x3B` trailer byte anywhere. -/
def gifInput : List ℕ := 0x4D :: 0x5A :: List.replicate 4095 0x41

/-- A 4109-byte PNG source: the IEND chunk at offsets 0–11, ZIP local-header
signatures at offsets 12 and 16, then `0x41` padding. -/
def pngZipInput : List ℕ :=
  P0.pngSig ++ ([0x50, 0x4B, 0x03, 0x04] ++ ([0x50, 0x4B, 0x03, 0x04] ++
    List.replicate 4089 0x41))

/-- A 1024-byte source with no format hint: an MZ signature at offset 0 and
`0x41` padding. -/
def mzInput : List ℕ := 0x4D :: 0x5A :: List.replicate 1022 0x41

/-- The ZIP local-header signature as nibbles. -/
def zipKey : List ℕ := [5, 0, 4, 11, 0, 3, 0, 4]

/-- The MZ signature as nibbles. -/
def mzKey : List ℕ := [4, 13, 5, 10]

lemma gifInput_length : gifInput.length = 4097 := by
  rw [show gifInput = 0x4D :: 0x5A :: List.replicate 4095 0x41 from rfl,
    List.length_cons, List.length_cons, List.length_replicate]

lemma pngZipInput_length : pngZipInput.length = 4109 := by
  unfold pngZipInput
  rw [List.length_append, List.length_append, List.length_append,
    List.length_replicate]
  rfl

lemma mzInput_length : mzInput.length = 1024 := by
  rw [show mzInput = 0x4D :: 0x5A :: List.replicate 1022 0x41 from rfl,
    List.length_cons, List.length_cons, List.length_replicate]

lemma findPrefixIdx_cons (pat : List ℕ) (a : ℕ) (t : List ℕ) :
    findPrefixIdx pat (a :: t) =
      if pat.isPrefixOf (a :: t) then some 0 else (findPrefixIdx pat t).map (· + 1) := by
  rw [findPrefixIdx]

lemma findPrefixIdx_pos (pat : List ℕ) (a : ℕ) (t : List ℕ)
    (h : pat.isPrefixOf (a :: t) = true) :
    findPrefixIdx pat (a :: t) = some 0 := by
  rw [findPrefixIdx_cons, if_pos h]

lemma findPrefixIdx_neg (pat : List ℕ) (a : ℕ) (t : List ℕ)
    (h : pat.isPrefixOf (a :: t) = false) :
    findPrefixIdx pat (a :: t) = (findPrefixIdx pat t).map (· + 1) := by
  rw [findPrefixIdx_cons, h]
  simp

lemma slab_self (u8 : List ℕ) (start : ℕ) (h : (u8.drop start).length ≤ 256 * 1024) :
    (u8.drop start).take (min (u8.drop start).length (256 * 1024)) = u8.drop start := by
  rw [min_eq_left h, List.take_length]

lemma gifInput_hex :
    nibbles gifInput = 4 :: 13 :: 5 :: 10 :: nibbles (List.replicate 4095 0x41) := by
  rw [show gifInput = 0x4D :: 0x5A :: List.replicate 4095 0x41 from rfl,
    nibbles_cons, nibbles_cons,
    show ((0x4D : ℕ) / 16) = 4 from rfl, show ((0x4D : ℕ) % 16) = 13 from rfl,
    show ((0x5A : ℕ) / 16) = 5 from rfl, show ((0x5A : ℕ) % 16) = 10 from rfl]

lemma gifInput_idx : findPrefixIdx mzKey (nibbles gifInput) = some 0 := by
  rw [gifInput_hex]
  refine findPrefixIdx_pos _ _ _ ?_
  simp [mzKey, List.isPrefixOf]

lemma gifInput_count0 : gifInput.count 0 = 0 := by
  rw [show gifInput = 0x4D :: 0x5A :: List.replicate 4095 0x41 from rfl,
    List.count_cons, List.count_cons, List.count_replicate]
  norm_num

lemma gifInput_cfks : P0.checkForKnownSignatures gifInput = true := by
  unfold P0.checkForKnownSignatures
  rw [if_neg (by rw [gifInput_length]; omega)]
  refine List.any_eq_true.mpr ⟨mzKey, by simp [P0.knownSigPatterns, mzKey], ?_⟩
  have htake : gifInput.take (min 4096 gifInput.length) =
      0x4D :: 0x5A :: List.replicate 4094 0x41 := by
    rw [gifInput_length, show min 4096 4097 = 4096 from rfl,
      show gifInput = 0x4D :: 0x5A :: List.replicate 4095 0x41 from rfl,
      List.take_cons, List.take_cons, List.take_replicate] <;> norm_num
  rw [htake, nibbles_cons, nibbles_cons,
    show ((0x4D : ℕ) / 16) = 4 from rfl, show ((0x4D : ℕ) % 16) = 13 from rfl,
    show ((0x5A : ℕ) / 16) = 5 from rfl, show ((0x5A : ℕ) % 16) = 10 from rfl,
    findPrefixIdx_pos _ _ _ (by simp [mzKey, List.isPrefixOf])]
  rfl

lemma vad_conf_one (data : List ℕ) (h0 : data.length ≠ 0)
    (hz : (data.take (min data.length 8192)).count 0 = 0)
    (hs : P0.checkForKnownSignatures data = true) :
    (P0.validateAppendedData data).confidence = 1 := by
  unfold P0.validateAppendedData
  rw [if_neg h0]
  dsimp only
  rw [hz, hs, Nat.cast_zero, zero_div,
    if_neg (by norm_num : ¬(9 / 10 : ℚ) < 0),
    if_neg (by norm_num : ¬(7 / 10 : ℚ) < 0), if_pos rfl]
  by_cases hent : (1 / 2 : ℝ) < P0.analyzeLocalEntropy data 0 (min 4096 data.length)
  · rw [if_pos hent]
    norm_num
  · rw [if_neg hent]
    norm_num

lemma gifInput_strong (θ : ℝ) (hθ : θ ≤ 1) : P0.strongAppended gifInput θ 0 := by
  unfold P0.strongAppended
  rw [List.drop_zero]
  refine ⟨gifInput_cfks, ?_, by rw [gifInput_length]; omega⟩
  rw [vad_conf_one gifInput (by rw [gifInput_length]; omega)
    (by rw [gifInput_length, show min 4097 8192 = 4097 from rfl, ← gifInput_length,
          List.take_length]
        exact gifInput_count0)
    gifInput_cfks]
  exact hθ

lemma gifInput_no_trailer : (0x3B : ℕ) ∉ gifInput := by
  rw [show gifInput = 0x4D :: 0x5A :: List.replicate 4095 0x41 from rfl]
  intro h
  rcases List.mem_cons.mp h with h | h
  · norm_num at h
  rcases List.mem_cons.mp h with h | h
  · norm_num at h
  rw [List.mem_replicate] at h
  omega

lemma gifInput_end : P0.endOffsetFor gifInput .gif = 0 := by
  unfold P0.endOffsetFor
  rw [lastIdxOf_eq_none gifInput_no_trailer]
  rfl

lemma gifInput_regions :
    P0.regionsFor gifInput .gif .conservative = [⟨0, .appended⟩] := by
  unfold P0.regionsFor
  dsimp only
  rw [gifInput_end, gifInput_length]
  rw [if_pos (by constructor <;> decide)]
  rfl

lemma gifInput_hit_mem :
    (⟨mzKey, 0, ["exe", "dll", "scr", "com"], Risk.CRITICAL,
      P0.RegionKind.appended⟩ : P0.Hit) ∈
      P0.regionHits gifInput 0 P0.RegionKind.appended := by
  unfold P0.regionHits
  dsimp only
  refine List.mem_filterMap.mpr
    ⟨⟨mzKey, ["exe", "dll", "scr", "com"], Risk.CRITICAL, 1024⟩, by decide, ?_⟩
  rw [List.drop_zero, gifInput_length,
    show (4097 : ℕ) ⊓ (256 * 1024) = 4097 from by decide, ← gifInput_length,
    List.take_length]
  dsimp only
  rw [gifInput_idx]
  dsimp only
  rw [if_neg (by rw [gifInput_length]; omega)]

lemma dedup_go_key_cover : ∀ (l : List P0.Hit) (seen : List (List ℕ × ℕ))
    (h : P0.Hit), h ∈ l → P0.hitKey h ∈ seen ∨
      ∃ h' ∈ P0.dedupHits.go seen l, P0.hitKey h' = P0.hitKey h := by
  intro l
  induction l with
  | nil => intro seen h hh; exact absurd hh (List.not_mem_nil h)
  | cons x t ih =>
    intro seen h hh
    rw [P0.dedupHits.go]
    rcases List.mem_cons.mp hh with rfl | hh
    · by_cases hx : (h.signature, h.offset) ∈ seen
      · exact Or.inl hx
      · rw [if_neg hx]
        exact Or.inr ⟨h, List.mem_cons_self _ _, rfl⟩
    · by_cases hx : (x.signature, x.offset) ∈ seen
      · rw [if_pos hx]
        exact ih seen h hh
      · rw [if_neg hx]
        rcases ih ((x.signature, x.offset) :: seen) h hh with hseen | ⟨h', hh', hk⟩
        · rcases List.mem_cons.mp hseen with he | hseen
          · exact Or.inr ⟨x, List.mem_cons_self _ _, he.symm⟩
          · exact Or.inl hseen
        · exact Or.inr ⟨h', List.mem_cons_of_mem x hh', hk⟩

lemma mem_dedup_key {l : List P0.Hit} {h : P0.Hit} (hh : h ∈ l) :
    ∃ h' ∈ P0.dedupHits l, P0.hitKey h' = P0.hitKey h := by
  rcases dedup_go_key_cover l [] h hh with hseen | hex
  · exact absurd hseen (List.not_mem_nil _)
  · exact hex

/-- **C1.**  The claim states that a source with no image terminator
analysed in conservative mode yields zero findings and `threatLevel = safe`.
On a GIF-typed source with no `0x3B` trailer byte the locator computes
`lastIndexOf(0x3B) + 1 = 0` instead of the `-1` sentinel, so the scanner
treats offset 0 as "just past the terminator", scans the whole file as an
appended region even in conservative mode, and here reports an MZ signature
with threat level critical. -/
theorem c1_conservative_gif_sentinel_bug :
    (0x3B : ℕ) ∉ gifInput ∧
    (P0.analyzeFileSignatures gifInput .gif .conservative).findings ≠ [] ∧
    (P0.analyzeFileSignatures gifInput .gif .conservative).threatLevel =
      P0.Threat.critical := by
  have hmem : (⟨mzKey, 0, ["exe", "dll", "scr", "com"], Risk.CRITICAL,
      P0.RegionKind.appended⟩ : P0.Hit) ∈
      (P0.regionsFor gifInput .gif .conservative).flatMap
        (P0.processRegion gifInput Mode.conservative.threshold) := by
    refine List.mem_flatMap.mpr ⟨⟨0, .appended⟩, ?_, ?_⟩
    · rw [gifInput_regions]
      exact List.mem_cons_self _ _
    · unfold P0.processRegion
      rw [if_neg (by dsimp only; rw [gifInput_length]; omega)]
      dsimp only
      rw [if_pos (gifInput_strong Mode.conservative.threshold
        (by rw [threshold_conservative]; norm_num))]
      exact gifInput_hit_mem
  obtain ⟨h', hh', hk⟩ := mem_dedup_key hmem
  have hfind : h' ∈ (P0.analyzeFileSignatures gifInput .gif .conservative).findings := by
    rw [P0.findings_eq]
    exact hh'
  have hsig : h'.signature = mzKey := by
    have := congrArg Prod.fst hk
    simpa [P0.hitKey] using this
  have hext : h'.ext = ["exe", "dll", "scr", "com"] := by
    obtain ⟨r, _, _, hrh⟩ := P0.mem_findings hfind
    obtain ⟨e, he, idx, _, _, hfe⟩ := P0.mem_regionHits hrh
    have hkey : e.key = mzKey := by rw [← hsig, hfe]
    have hnd : (P0.sigTable.map P0.SigEntry.key).Nodup := by decide
    have : e = ⟨mzKey, ["exe", "dll", "scr", "com"], Risk.CRITICAL, 1024⟩ :=
      List.inj_on_of_nodup_map hnd he (by decide) hkey
    rw [hfe, this]
  refine ⟨gifInput_no_trailer, List.ne_nil_of_mem hfind, ?_⟩
  rw [P0.threatLevel_eq]
  unfold P0.threatOf
  rw [if_pos]
  exact List.any_eq_true.mpr ⟨h', hfind, by rw [hext]; decide⟩

/-! ## C3: mode monotonicity of the scanned byte surface -/

/-- A 262146-byte all-zero source with no terminator: long enough that the
balanced region extends past the aggressive region's 256-KiB cap. -/
def bigInput : List ℕ := List.replicate 262146 0

lemma bigInput_length : bigInput.length = 262146 := List.length_replicate _ _

lemma bigInput_regions_bal :
    P0.regionsFor bigInput .other .balanced = [⟨64 * 1024, .fullSkipHeader⟩] := by
  unfold P0.regionsFor P0.endOffsetFor
  dsimp only
  rw [if_neg (by rintro ⟨h1, _⟩; exact lt_irrefl _ h1)]
  rfl

lemma bigInput_regions_agg :
    P0.regionsFor bigInput .other .aggressive = [⟨0, .full⟩] := by
  unfold P0.regionsFor P0.endOffsetFor
  dsimp only
  rw [if_neg (by rintro ⟨h1, _⟩; exact lt_irrefl _ h1)]
  rfl

lemma scanned_balanced_big (u8 : List ℕ) (hint : FormatHint)
    (hlen : u8.length = 262146)
    (hreg : P0.regionsFor u8 hint .balanced = [⟨64 * 1024, .fullSkipHeader⟩]) :
    P0.ScannedAt u8 hint .balanced 262145 := by
  refine ⟨⟨64 * 1024, .fullSkipHeader⟩, ?_, ?_, ?_, ?_, ?_⟩
  · rw [hreg]
    exact List.mem_cons_self _ _
  · dsimp only
    omega
  · intro hk
    exact absurd hk (by decide)
  · dsimp only
    norm_num
  · dsimp only
    rw [hlen]
    decide

lemma not_scanned_aggressive_big (u8 : List ℕ) (hint : FormatHint)
    (hlen : u8.length = 262146)
    (hreg : P0.regionsFor u8 hint .aggressive = [⟨0, .full⟩]) :
    ¬P0.ScannedAt u8 hint .aggressive 262145 := by
  rintro ⟨r, hr, hlt, himp, hle, hub⟩
  rw [hreg] at hr
  have hr0 : r = ⟨0, P0.RegionKind.full⟩ := by
    rcases List.mem_cons.mp hr with h | h
    · exact h
    · exact absurd h (List.not_mem_nil r)
  rw [hr0] at hub
  dsimp only at hub
  rw [hlen] at hub
  omega

/-- Counterexample to C3 as stated: on a 262146-byte terminator-less file,
byte offset 262145 is scanned in balanced mode (the post-64-KiB region
reaches up to 64 KiB + 256 KiB) but not in aggressive mode (whose whole-file
region is capped at 256 KiB from offset 0), so aggressive's surface is not a
superset of balanced's. -/
theorem c3_counterexample :
    P0.ScannedAt bigInput .other .balanced 262145 ∧
    ¬P0.ScannedAt bigInput .other .aggressive 262145 :=
  ⟨scanned_balanced_big bigInput .other bigInput_length bigInput_regions_bal,
   not_scanned_aggressive_big bigInput .other bigInput_length bigInput_regions_agg⟩

/-- **C3 (amended).**  For the same file, both the balanced and the
aggressive candidate surfaces contain the conservative surface (conservative
scans at most a validated appended region, which the other modes also scan —
their thresholds are lower).  The third inclusion of the original claim,
aggressive ⊇ balanced, is false — see the counterexample. -/
theorem c3_conservative_subset (u8 : List ℕ) (hint : FormatHint) (i : ℕ)
    (h : P0.ScannedAt u8 hint .conservative i) :
    P0.ScannedAt u8 hint .balanced i ∧ P0.ScannedAt u8 hint .aggressive i := by
  obtain ⟨r, hr, hlt, himp, hle, hub⟩ := h
  have hr' : r ∈ (if -1 < P0.endOffsetFor u8 hint ∧
      P0.endOffsetFor u8 hint < (u8.length : ℤ) - 4096 then
        ([⟨(P0.endOffsetFor u8 hint).toNat, .appended⟩] : List P0.Region) else []) := by
    unfold P0.regionsFor at hr
    dsimp only at hr
    simpa using hr
  have hmono : ∀ θ' : ℝ, θ' ≤ Mode.conservative.threshold →
      r.kind = .appended → P0.strongAppended u8 θ' r.start := by
    intro θ' hθ hk
    obtain ⟨h1, h2, h3⟩ := himp hk
    exact ⟨h1, le_trans hθ h2, h3⟩
  constructor
  · refine ⟨r, ?_, hlt, hmono _ ?_, hle, hub⟩
    · unfold P0.regionsFor
      dsimp only
      exact List.mem_append_left _ hr'
    · rw [threshold_balanced, threshold_conservative]
      norm_num
  · refine ⟨r, ?_, hlt, hmono _ ?_, hle, hub⟩
    · unfold P0.regionsFor
      dsimp only
      exact List.mem_append_left _ hr'
    · rw [threshold_aggressive, threshold_conservative]
      norm_num

/-- Witness for the amended C3: offset 0 of `gifInput` lies in the
conservative surface (the appended region passes the strong gate), hence in
the balanced and aggressive surfaces. -/
theorem c3_witness :
    P0.ScannedAt gifInput .gif .conservative 0 ∧
    P0.ScannedAt gifInput .gif .balanced 0 ∧
    P0.ScannedAt gifInput .gif .aggressive 0 := by
  have h0 : P0.ScannedAt gifInput .gif .conservative 0 := by
    refine ⟨⟨0, .appended⟩, ?_, ?_, ?_, ?_, ?_⟩
    · rw [gifInput_regions]
      exact List.mem_cons_self _ _
    · dsimp only
      rw [gifInput_length]
      norm_num
    · intro _
      exact gifInput_strong _ (by rw [threshold_conservative]; norm_num)
    · exact le_rfl
    · dsimp only
      rw [gifInput_length]
      decide
  exact ⟨h0, (c3_conservative_subset gifInput .gif 0 h0).1,
    (c3_conservative_subset gifInput .gif 0 h0).2⟩

/-! ## C7 counterexample: a second occurrence of a signature is dropped -/

lemma take_cons4 (a b c d : ℕ) (l : List ℕ) (n : ℕ) (h : 4 ≤ n) :
    (a :: b :: c :: d :: l).take n = [a, b, c, d] ++ l.take (n - 4) := by
  obtain ⟨m, rfl⟩ : ∃ m, n = m + 4 := ⟨n - 4, by omega⟩
  rw [show m + 4 = (m + 3) + 1 from rfl, List.take_succ_cons,
    show m + 3 = (m + 2) + 1 from rfl, List.take_succ_cons,
    show m + 2 = (m + 1) + 1 from rfl, List.take_succ_cons,
    List.take_succ_cons, show m + 1 + 1 + 1 + 1 - 4 = m from by omega]
  rfl

lemma pngZip_drop12 :
    pngZipInput.drop 12 =
      [0x50, 0x4B, 0x03, 0x04] ++
        ([0x50, 0x4B, 0x03, 0x04] ++ List.replicate 4089 0x41) := by
  unfold pngZipInput
  rw [show (12 : ℕ) = P0.pngSig.length from rfl, List.drop_left]

lemma pngZip_drop12_length : (pngZipInput.drop 12).length = 4097 := by
  rw [pngZip_drop12, List.length_append, List.length_append,
    List.length_replicate]
  decide

lemma pngZip_count0 : (pngZipInput.drop 12).count 0 = 0 := by
  rw [pngZip_drop12, List.count_append, List.count_append,
    List.count_replicate]
  norm_num

lemma pngZip_app_idx :
    findPrefixIdx zipKey (nibbles (pngZipInput.drop 12)) = some 0 := by
  rw [pngZip_drop12, nibbles_append,
    show nibbles [0x50, 0x4B, 0x03, 0x04] = [5, 0, 4, 11, 0, 3, 0, 4] from rfl]
  simp only [List.cons_append, List.nil_append]
  exact findPrefixIdx_pos _ _ _ (by simp [zipKey, List.isPrefixOf])

lemma pngZip_cfks : P0.checkForKnownSignatures (pngZipInput.drop 12) = true := by
  unfold P0.checkForKnownSignatures
  rw [if_neg (by rw [pngZip_drop12_length]; omega)]
  refine List.any_eq_true.mpr ⟨zipKey, by simp [P0.knownSigPatterns, zipKey], ?_⟩
  rw [pngZip_drop12_length, show min 4096 4097 = 4096 from rfl, pngZip_drop12]
  simp only [List.cons_append, List.nil_append]
  rw [take_cons4 _ _ _ _ _ _ (by norm_num), nibbles_append,
    show nibbles [0x50, 0x4B, 0x03, 0x04] = [5, 0, 4, 11, 0, 3, 0, 4] from rfl]
  simp only [List.cons_append, List.nil_append]
  rw [findPrefixIdx_pos _ _ _ (by simp [zipKey, List.isPrefixOf])]
  rfl

lemma pngZip_strong (θ : ℝ) (hθ : θ ≤ 1) :
    P0.strongAppended pngZipInput θ 12 := by
  unfold P0.strongAppended
  refine ⟨pngZip_cfks, ?_, by rw [pngZip_drop12_length]; omega⟩
  rw [vad_conf_one (pngZipInput.drop 12) (by rw [pngZip_drop12_length]; omega)
    (by rw [pngZip_drop12_length, show min 4097 8192 = 4097 from rfl,
          ← pngZip_drop12_length, List.take_length]
        exact pngZip_count0)
    pngZip_cfks]
  exact hθ

lemma pngZip_idx0 : findPrefixIdx P0.pngSig pngZipInput = some 0 := by
  rw [show pngZipInput =
    0 :: ([0, 0, 0, 0x49, 0x45, 0x4E, 0x44, 0xAE, 0x42, 0x60, 0x82] ++
      ([0x50, 0x4B, 0x03, 0x04] ++
        ([0x50, 0x4B, 0x03, 0x04] ++ List.replicate 4089 0x41))) from rfl]
  exact findPrefixIdx_pos _ _ _
    (by simp [P0.pngSig, List.isPrefixOf, List.cons_append])

lemma pngZip_end : P0.endOffsetFor pngZipInput .png = 12 := by
  unfold P0.endOffsetFor P0.pngEndOffset
  rw [pngZip_idx0]
  rfl

lemma pngZip_regions :
    P0.regionsFor pngZipInput .png .aggressive =
      [⟨12, .appended⟩, ⟨0, .full⟩] := by
  unfold P0.regionsFor
  dsimp only
  rw [pngZip_end, pngZipInput_length]
  rw [if_pos (by constructor <;> decide)]
  rfl

lemma pngZip_full_hex :
    nibbles pngZipInput =
      [0, 0, 0, 0, 0, 0, 0, 0, 4, 9, 4, 5, 4, 14, 4, 4, 10, 14, 4, 2, 6, 0, 8, 2] ++
        ([5, 0, 4, 11, 0, 3, 0, 4] ++
          nibbles ([0x50, 0x4B, 0x03, 0x04] ++ List.replicate 4089 0x41)) := by
  unfold pngZipInput
  rw [nibbles_append, nibbles_append,
    show nibbles P0.pngSig =
      [0, 0, 0, 0, 0, 0, 0, 0, 4, 9, 4, 5, 4, 14, 4, 4, 10, 14, 4, 2, 6, 0, 8, 2]
      from rfl,
    show nibbles [0x50, 0x4B, 0x03, 0x04] = [5, 0, 4, 11, 0, 3, 0, 4] from rfl]

lemma pngZip_full_idx : findPrefixIdx zipKey (nibbles pngZipInput) = some 24 := by
  rw [pngZip_full_hex]
  simp only [List.cons_append, List.nil_append]
  rw [findPrefixIdx_neg _ _ _ (by simp [zipKey, List.isPrefixOf]),
    findPrefixIdx_neg _ _ _ (by simp [zipKey, List.isPrefixOf]),
    findPrefixIdx_neg _ _ _ (by simp [zipKey, List.isPrefixOf]),
    findPrefixIdx_neg _ _ _ (by simp [zipKey, List.isPrefixOf]),
    findPrefixIdx_neg _ _ _ (by simp [zipKey, List.isPrefixOf]),
    findPrefixIdx_neg _ _ _ (by simp [zipKey, List.isPrefixOf]),
    findPrefixIdx_neg _ _ _ (by simp [zipKey, List.isPrefixOf]),
    findPrefixIdx_neg _ _ _ (by simp [zipKey, List.isPrefixOf]),
    findPrefixIdx_neg _ _ _ (by simp [zipKey, List.isPrefixOf]),
    findPrefixIdx_neg _ _ _ (by simp [zipKey, List.isPrefixOf]),
    findPrefixIdx_neg _ _ _ (by simp [zipKey, List.isPrefixOf]),
    findPrefixIdx_neg _ _ _ (by simp [zipKey, List.isPrefixOf]),
    findPrefixIdx_neg _ _ _ (by simp [zipKey, List.isPrefixOf]),
    findPrefixIdx_neg _ _ _ (by simp [zipKey, List.isPrefixOf]),
    findPrefixIdx_neg _ _ _ (by simp [zipKey, List.isPrefixOf]),
    findPrefixIdx_neg _ _ _ (by simp [zipKey, List.isPrefixOf]),
    findPrefixIdx_neg _ _ _ (by simp [zipKey, List.isPrefixOf]),
    findPrefixIdx_neg _ _ _ (by simp [zipKey, List.isPrefixOf]),
    findPrefixIdx_neg _ _ _ (by simp [zipKey, List.isPrefixOf]),
    findPrefixIdx_neg _ _ _ (by simp [zipKey, List.isPrefixOf]),
    findPrefixIdx_neg _ _ _ (by simp [zipKey, List.isPrefixOf]),
    findPrefixIdx_neg _ _ _ (by simp [zipKey, List.isPrefixOf]),
    findPrefixIdx_neg _ _ _ (by simp [zipKey, List.isPrefixOf]),
    findPrefixIdx_neg _ _ _ (by simp [zipKey, List.isPrefixOf]),
    findPrefixIdx_pos _ _ _ (by simp [zipKey, List.isPrefixOf])]
  rfl

lemma pngZip_slab12 :
    (pngZipInput.drop 12).take (min (pngZipInput.drop 12).length (256 * 1024)) =
      pngZipInput.drop 12 :=
  slab_self _ _ (by rw [pngZip_drop12_length]; norm_num)

lemma pngZip_slab0 :
    (pngZipInput.drop 0).take (min (pngZipInput.drop 0).length (256 * 1024)) =
      pngZipInput := by
  rw [slab_self pngZipInput 0
    (by rw [List.drop_zero, pngZipInput_length]; norm_num), List.drop_zero]

lemma pngZip_no_zip16 :
    (P0.analyzeFileSignatures pngZipInput .png .aggressive).findings.countP
      (fun h => decide (h.signature = zipKey ∧ h.offset = 16)) = 0 := by
  rw [List.countP_eq_zero]
  intro f hmem
  simp only [decide_eq_true_eq, not_and]
  intro hs ho
  obtain ⟨r, hr, hlt, hrh⟩ := P0.mem_findings hmem
  obtain ⟨e, he, idx, hidx, hsz, hfe⟩ := P0.mem_regionHits hrh
  rw [hfe] at hs ho
  dsimp only at hs ho
  rw [hs] at hidx
  rw [pngZip_regions] at hr
  rcases List.mem_cons.mp hr with rfl | hr
  · dsimp only at hidx ho
    rw [pngZip_slab12, pngZip_app_idx] at hidx
    obtain rfl : (0 : ℕ) = idx := Option.some.inj hidx
    omega
  rcases List.mem_cons.mp hr with rfl | hr
  · dsimp only at hidx ho
    rw [pngZip_slab0, pngZip_full_idx] at hidx
    obtain rfl : (24 : ℕ) = idx := Option.some.inj hidx
    omega
  · exact absurd hr (List.not_mem_nil r)

/-- Counterexample to C7 as stated: on a PNG source whose IEND chunk is
followed by two ZIP local-header signatures (byte offsets 12 and 16),
aggressive mode scans both an appended region (start 12, strongly validated)
and a full-file region, and the ZIP pattern occurs at byte offset 16 in both
(nibble index 8 of the appended window's hex stream and nibble index 32 of
the full stream).  Yet no Finding for (ZIP, 16) is returned — each region
records only the first `indexOf` match of each signature, which here is
offset 12 in both regions — refuting "exactly one Finding". -/
theorem c7_counterexample :
    P0.regionsFor pngZipInput .png .aggressive =
      [⟨12, .appended⟩, ⟨0, .full⟩] ∧
    P0.strongAppended pngZipInput Mode.aggressive.threshold 12 ∧
    zipKey.isPrefixOf ((nibbles (pngZipInput.drop 12)).drop 8) = true ∧
    zipKey.isPrefixOf ((nibbles pngZipInput).drop 32) = true ∧
    (P0.analyzeFileSignatures pngZipInput .png .aggressive).findings.countP
      (fun h => decide (h.signature = zipKey ∧ h.offset = 16)) = 0 := by
  refine ⟨pngZip_regions,
    pngZip_strong _ (by rw [threshold_aggressive]; norm_num), ?_, ?_,
    pngZip_no_zip16⟩
  · rw [pngZip_drop12, nibbles_append,
      show nibbles [0x50, 0x4B, 0x03, 0x04] = [5, 0, 4, 11, 0, 3, 0, 4] from rfl,
      show (8 : ℕ) = ([5, 0, 4, 11, 0, 3, 0, 4] : List ℕ).length from rfl,
      List.drop_left, nibbles_append,
      show nibbles [0x50, 0x4B, 0x03, 0x04] = [5, 0, 4, 11, 0, 3, 0, 4] from rfl]
    simp [zipKey, List.isPrefixOf, List.cons_append]
  · rw [pngZip_full_hex, ← List.append_assoc,
      show (32 : ℕ) =
        (([0, 0, 0, 0, 0, 0, 0, 0, 4, 9, 4, 5, 4, 14, 4, 4, 10, 14, 4, 2, 6, 0,
           8, 2] : List ℕ) ++ [5, 0, 4, 11, 0, 3, 0, 4]).length from rfl,
      List.drop_left, nibbles_append,
      show nibbles [0x50, 0x4B, 0x03, 0x04] = [5, 0, 4, 11, 0, 3, 0, 4] from rfl]
    simp [zipKey, List.isPrefixOf, List.cons_append]

/-! ## C2 witness input -/

lemma mzInput_idx : findPrefixIdx mzKey (nibbles mzInput) = some 0 := by
  rw [show mzInput = 0x4D :: 0x5A :: List.replicate 1022 0x41 from rfl,
    nibbles_cons, nibbles_cons,
    show ((0x4D : ℕ) / 16) = 4 from rfl, show ((0x4D : ℕ) % 16) = 13 from rfl,
    show ((0x5A : ℕ) / 16) = 5 from rfl, show ((0x5A : ℕ) % 16) = 10 from rfl]
  exact findPrefixIdx_pos _ _ _ (by simp [mzKey, List.isPrefixOf])

lemma mzInput_regions :
    P0.regionsFor mzInput .other .aggressive = [⟨0, .full⟩] := by
  unfold P0.regionsFor P0.endOffsetFor
  dsimp only
  rw [if_neg (by rintro ⟨h1, _⟩; exact lt_irrefl _ h1)]
  rfl

lemma mzInput_hit_mem :
    (⟨mzKey, 0, ["exe", "dll", "scr", "com"], Risk.CRITICAL,
      P0.RegionKind.full⟩ : P0.Hit) ∈
      P0.regionHits mzInput 0 P0.RegionKind.full := by
  unfold P0.regionHits
  dsimp only
  refine List.mem_filterMap.mpr
    ⟨⟨mzKey, ["exe", "dll", "scr", "com"], Risk.CRITICAL, 1024⟩, by decide, ?_⟩
  rw [List.drop_zero, mzInput_length,
    show (1024 : ℕ) ⊓ (256 * 1024) = 1024 from by decide, ← mzInput_length,
    List.take_length]
  dsimp only
  rw [mzInput_idx]
  dsimp only
  rw [if_neg (by rw [mzInput_length]; omega)]

/-- Witness for C2: on a 1024-byte source holding an MZ signature at offset
0, scanned in aggressive mode, the scanner emits an MZ finding, and that
finding leaves exactly its 1024-byte minimum plausible size after its
offset. -/
theorem c2_witness :
    ∃ f ∈ (P0.analyzeFileSignatures mzInput .other .aggressive).findings,
      f.signature = mzKey ∧ f.offset + 1024 ≤ mzInput.length := by
  have hmem : (⟨mzKey, 0, ["exe", "dll", "scr", "com"], Risk.CRITICAL,
      P0.RegionKind.full⟩ : P0.Hit) ∈
      (P0.regionsFor mzInput .other .aggressive).flatMap
        (P0.processRegion mzInput Mode.aggressive.threshold) := by
    refine List.mem_flatMap.mpr ⟨⟨0, .full⟩, ?_, ?_⟩
    · rw [mzInput_regions]
      exact List.mem_cons_self _ _
    · unfold P0.processRegion
      rw [if_neg (by dsimp only; rw [mzInput_length]; omega)]
      dsimp only
      exact mzInput_hit_mem
  obtain ⟨h', hh', hk⟩ := mem_dedup_key hmem
  have hfind : h' ∈ (P0.analyzeFileSignatures mzInput .other .aggressive).findings := by
    rw [P0.findings_eq]
    exact hh'
  have hsig : h'.signature = mzKey := by
    have := congrArg Prod.fst hk
    simpa [P0.hitKey] using this
  exact ⟨h', hfind, hsig,
    c2_min_plausible_size mzInput .other .aggressive h' hfind
      ⟨mzKey, ["exe", "dll", "scr", "com"], Risk.CRITICAL, 1024⟩
      (by decide) (by rw [hsig])⟩

/-! ## C8/C9: confidence bounds of the scoring scanner -/

lemma entTerm_nonneg {p : ℝ} (h0 : 0 ≤ p) (h1 : p ≤ 1) : 0 ≤ entTerm p := by
  unfold entTerm
  split
  case isTrue hp =>
    have hl : Real.logb 2 p ≤ 0 := Real.logb_nonpos (by norm_num) h0 h1
    nlinarith
  case isFalse hp => exact le_refl 0

lemma analyzeLocalEntropyA_nonneg (u8 : List ℕ) (offset length : ℕ) :
    0 ≤ App.analyzeLocalEntropy u8 offset length := by
  unfold App.analyzeLocalEntropy
  dsimp only
  apply div_nonneg _ (by norm_num)
  apply Finset.sum_nonneg
  intro i _
  apply entTerm_nonneg
  · positivity
  · rcases Nat.eq_zero_or_pos ((u8.take (offset + length)).drop offset).length with h | h
    · rw [h]
      norm_num
    · rw [div_le_one (by exact_mod_cast h)]
      exact_mod_cast List.count_le_length i ((u8.take (offset + length)).drop offset)

lemma repCount_mul_le (sample : List ℕ) (stride i : ℕ) :
    stride * App.repCount sample stride i ≤ sample.length - i := by
  rw [App.repCount]
  split
  case isTrue h =>
    have ih := repCount_mul_le sample stride (i + stride)
    have hb1 : (if (sample.drop i).take stride = (sample.drop (i + stride)).take stride
        then 1 else 0) ≤ 1 := by split <;> omega
    have hmul : stride *
        ((if (sample.drop i).take stride = (sample.drop (i + stride)).take stride
          then 1 else 0) + App.repCount sample stride (i + stride)) =
        stride * (if (sample.drop i).take stride = (sample.drop (i + stride)).take stride
          then 1 else 0) + stride * App.repCount sample stride (i + stride) :=
      Nat.mul_add _ _ _
    have hsb : stride *
        (if (sample.drop i).take stride = (sample.drop (i + stride)).take stride
          then 1 else 0) ≤ stride :=
      le_trans (Nat.mul_le_mul_left _ hb1) (le_of_eq (Nat.mul_one _))
    omega
  case isFalse h => omega
  termination_by sample.length - i
  decreasing_by omega

lemma repRate_le_one (sample : List ℕ) (stride : ℕ) :
    App.repRate sample stride ≤ 1 := by
  unfold App.repRate
  rcases Nat.eq_zero_or_pos stride with hs | hs
  · subst hs
    rw [App.repCount, dif_neg (by omega)]
    norm_num
  · rcases Nat.eq_zero_or_pos sample.length with hl | hl
    · rw [App.repCount, dif_neg (by omega), hl]
      norm_num
    · have hkey : (App.repCount sample stride 0 : ℚ) * (stride : ℚ) ≤
          (sample.length : ℚ) := by
        have hn := repCount_mul_le sample stride 0
        rw [Nat.sub_zero] at hn
        exact_mod_cast le_of_eq_of_le (mul_comm _ _) (Nat.cast_le.mpr hn)
      have hpos : (0 : ℚ) < (sample.length : ℚ) / (stride : ℚ) :=
        div_pos (by exact_mod_cast hl) (by exact_mod_cast hs)
      rw [div_le_one hpos, le_div_iff (by exact_mod_cast hs)]
      exact hkey

lemma checkForRegularPatterns_le_one (u8 : List ℕ) (offset : ℕ) :
    App.checkForRegularPatterns u8 offset ≤ 1 := by
  unfold App.checkForRegularPatterns
  split
  · norm_num
  · dsimp only
    have h3 := repRate_le_one ((u8.take (offset + 50)).drop (offset - 50)) 3
    have h4 := repRate_le_one ((u8.take (offset + 50)).drop (offset - 50)) 4
    have hps3 : (if 3 / 10 < App.repRate ((u8.take (offset + 50)).drop (offset - 50)) 3
        then max 0 (App.repRate ((u8.take (offset + 50)).drop (offset - 50)) 3)
        else 0) ≤ 1 := by
      split
      · exact max_le (by norm_num) h3
      · norm_num
    split
    · exact max_le hps3 h4
    · exact hps3

lemma validateContext_nonneg (u8 : List ℕ) (offset : ℕ) (tps : List ℕ) :
    0 ≤ App.validateContext u8 offset tps := by
  unfold App.validateContext
  split
  · norm_num
  · split
    · norm_num
    · have := checkForRegularPatterns_le_one u8 offset
      linarith

lemma validateFileStructure_nonneg (u8 : List ℕ) (offset : ℕ) (sig : App.AppSigInfo) :
    0 ≤ App.validateFileStructure u8 offset sig := by
  unfold App.validateFileStructure App.validatePEExecutable App.validateZipStructure
    App.validatePDFStructure
  dsimp only
  split_ifs <;> norm_num

lemma vsd_confidence_nonneg (u8 : List ℕ) (offset : ℕ) (sig : App.AppSigInfo)
    (tps : List ℕ) (mode : Mode) :
    0 ≤ (App.validateSignatureDetection u8 offset sig tps mode).confidence := by
  unfold App.validateSignatureDetection
  dsimp only
  refine le_min (by norm_num) ?_
  have hctx : (0 : ℝ) ≤ (if App.ModeCtx mode then
      ((App.validateContext u8 offset tps : ℚ) : ℝ) * 0.3 else 0.3) := by
    split
    · have hc : (0 : ℝ) ≤ ((App.validateContext u8 offset tps : ℚ) : ℝ) := by
        exact_mod_cast validateContext_nonneg u8 offset tps
      exact mul_nonneg hc (by norm_num)
    · norm_num
  have hstruct : (0 : ℝ) ≤ (if mode = .conservative ∨ mode = .balanced then
      ((App.validateFileStructure u8 offset sig : ℚ) : ℝ) * 0.25 else 0.25) := by
    split
    · have hc : (0 : ℝ) ≤ ((App.validateFileStructure u8 offset sig : ℚ) : ℝ) := by
        exact_mod_cast validateFileStructure_nonneg u8 offset sig
      exact mul_nonneg hc (by norm_num)
    · norm_num
  have hsize : (0 : ℝ) ≤ (if App.getMinimumFileSize sig mode ≤ u8.length - offset
      then (0.15 : ℝ) else 0) := by
    split <;> norm_num
  have hent : (0 : ℝ) ≤
      App.analyzeLocalEntropy u8 offset (min 1024 (u8.length - offset)) * 0.1 :=
    mul_nonneg (analyzeLocalEntropyA_nonneg _ _ _) (by norm_num)
  linarith

lemma vsd_confidence_le_one (u8 : List ℕ) (offset : ℕ) (sig : App.AppSigInfo)
    (tps : List ℕ) (mode : Mode) :
    (App.validateSignatureDetection u8 offset sig tps mode).confidence ≤ 1 := by
  unfold App.validateSignatureDetection
  dsimp only
  exact min_le_left _ _

lemma vadA_confidence_nonneg (data : List ℕ) :
    0 ≤ (App.validateAppendedDataA data).confidence := by
  unfold App.validateAppendedDataA
  dsimp only
  refine le_min (by norm_num) ?_
  split_ifs <;> norm_num

lemma vadA_confidence_le_one (data : List ℕ) :
    (App.validateAppendedDataA data).confidence ≤ 1 := by
  unfold App.validateAppendedDataA
  dsimp only
  exact min_le_left _ _

lemma vsd_aggressive (u8 : List ℕ) (offset : ℕ) (sig : App.AppSigInfo)
    (tps : List ℕ) :
    (0.75 : ℝ) ≤
      (App.validateSignatureDetection u8 offset sig tps .aggressive).confidence ∧
    (App.validateSignatureDetection u8 offset sig tps .aggressive).isValid := by
  have hconf : (0.75 : ℝ) ≤
      (App.validateSignatureDetection u8 offset sig tps .aggressive).confidence := by
    unfold App.validateSignatureDetection
    dsimp only
    rw [if_neg (by decide : ¬(App.ModeCtx Mode.aggressive = true)),
      if_neg (by decide :
        ¬(Mode.aggressive = Mode.conservative ∨ Mode.aggressive = Mode.balanced))]
    refine le_min (by norm_num) ?_
    have hsize : (0 : ℝ) ≤ (if App.getMinimumFileSize sig .aggressive ≤ u8.length - offset
        then (0.15 : ℝ) else 0) := by
      split <;> norm_num
    have hent : (0 : ℝ) ≤
        App.analyzeLocalEntropy u8 offset (min 1024 (u8.length - offset)) * 0.1 :=
      mul_nonneg (analyzeLocalEntropyA_nonneg _ _ _) (by norm_num)
    linarith
  refine ⟨hconf, ?_⟩
  show Mode.aggressive.threshold ≤
    (App.validateSignatureDetection u8 offset sig tps .aggressive).confidence
  rw [threshold_aggressive]
  linarith

lemma mem_insertDesc {f g : App.Finding} {l : List App.Finding} :
    f ∈ App.insertDesc g l ↔ f = g ∨ f ∈ l := by
  induction l with
  | nil =>
    rw [App.insertDesc]
    simp
  | cons x t ih =>
    rw [App.insertDesc]
    split
    · simp [List.mem_cons]
    · rw [List.mem_cons, ih, List.mem_cons]
      tauto

lemma mem_sortByConfDesc {f : App.Finding} {l : List App.Finding} :
    f ∈ App.sortByConfDesc l ↔ f ∈ l := by
  induction l with
  | nil => rw [App.sortByConfDesc]
  | cons x t ih =>
    rw [App.sortByConfDesc, mem_insertDesc, ih, List.mem_cons]

lemma aggressive_match_mem (u8 : List ℕ) (sig : App.AppSigInfo)
    (hsig : sig ∈ App.appSigTable) (idx : ℕ)
    (hidx : idx ∈ occList sig.key (nibbles u8)) :
    (⟨some sig.key, idx / 2,
      (App.validateSignatureDetection u8 (idx / 2) sig
        (App.findImageTerminationPoints u8) .aggressive).confidence,
      (App.validateSignatureDetection u8 (idx / 2) sig
        (App.findImageTerminationPoints u8) .aggressive).risk⟩ : App.Finding) ∈
      App.analyzeFileSignaturesA u8 .aggressive := by
  obtain ⟨hconf, hvalid⟩ :=
    vsd_aggressive u8 (idx / 2) sig (App.findImageTerminationPoints u8)
  unfold App.analyzeFileSignaturesA
  rw [mem_sortByConfDesc]
  refine List.mem_filter.mpr ⟨?_, decide_eq_true ?_⟩
  · unfold App.detectedSignatures
    dsimp only
    refine List.mem_flatMap.mpr ⟨sig, hsig, ?_⟩
    refine List.mem_filterMap.mpr ⟨idx, hidx, ?_⟩
    dsimp only
    rw [if_pos ⟨hvalid, by rw [threshold_aggressive]; linarith⟩]
  · show Mode.aggressive.threshold ≤ _
    rw [threshold_aggressive]
    dsimp only
    linarith

/-- **C8.**  Every finding emitted by the confidence-scoring scanner — on
the signature-scoring path (`analyzeFileSignaturesA`) or the appended-data
path (`appendedDataFindings`) — carries a confidence in the closed interval
[0, 1]: both scores are clamped above by `min 1 ·` and every summand of both
weighted sums is nonnegative. -/
theorem c8_confidence_bounded (u8 : List ℕ) (mode : Mode) (f : App.Finding)
    (hf : f ∈ App.analyzeFileSignaturesA u8 mode ∨
      f ∈ App.appendedDataFindings u8 mode) :
    0 ≤ f.confidence ∧ f.confidence ≤ 1 := by
  rcases hf with hf | hf
  · unfold App.analyzeFileSignaturesA at hf
    rw [mem_sortByConfDesc] at hf
    have hf2 := (List.mem_filter.mp hf).1
    unfold App.detectedSignatures at hf2
    dsimp only at hf2
    obtain ⟨sig, hsig, hfm⟩ := List.mem_flatMap.mp hf2
    obtain ⟨idx, hidx, hsome⟩ := List.mem_filterMap.mp hfm
    by_cases hc : (App.validateSignatureDetection u8 (idx / 2) sig
        (App.findImageTerminationPoints u8) mode).isValid ∧
        mode.threshold ≤ (App.validateSignatureDetection u8 (idx / 2) sig
          (App.findImageTerminationPoints u8) mode).confidence
    · rw [if_pos hc] at hsome
      obtain rfl := Option.some.inj hsome
      exact ⟨vsd_confidence_nonneg u8 (idx / 2) sig
          (App.findImageTerminationPoints u8) mode,
        vsd_confidence_le_one u8 (idx / 2) sig
          (App.findImageTerminationPoints u8) mode⟩
    · rw [if_neg hc] at hsome
      exact absurd hsome (by simp)
  · unfold App.appendedDataFindings at hf
    obtain ⟨tp, htp, hsome⟩ := List.mem_filterMap.mp hf
    by_cases h1 : tp < u8.length - 100
    case neg =>
      rw [if_neg h1] at hsome
      exact absurd hsome (by simp)
    rw [if_pos h1] at hsome
    dsimp only at hsome
    by_cases h2 : (if mode = .conservative then 1000 else 100) ≤ (u8.drop tp).length
    case neg =>
      rw [if_neg h2] at hsome
      exact absurd hsome (by simp)
    rw [if_pos h2] at hsome
    by_cases h3 : mode.threshold ≤ (App.validateAppendedDataA (u8.drop tp)).confidence
    case neg =>
      rw [if_neg h3] at hsome
      exact absurd hsome (by simp)
    rw [if_pos h3] at hsome
    obtain rfl := Option.some.inj hsome
    exact ⟨vadA_confidence_nonneg _, vadA_confidence_le_one _⟩

/-- A 100-byte source with an MZ signature at offset 0 and `0x41` padding. -/
def u8D : List ℕ := 0x4D :: 0x5A :: List.replicate 98 0x41

set_option maxRecDepth 40000 in
lemma u8D_occ : occList [4, 13, 5, 10] (nibbles u8D) = [0] := by decide

/-- Witness for C8: the MZ finding emitted on the 100-byte source in
aggressive mode has confidence within [0, 1]. -/
theorem c8_witness :
    ∃ f ∈ App.analyzeFileSignaturesA u8D .aggressive,
      0 ≤ f.confidence ∧ f.confidence ≤ 1 := by
  have hmem := aggressive_match_mem u8D ⟨[4, 13, 5, 10], ["exe", "dll", "scr", "com"]⟩
    (List.mem_cons_self _ _) 0
    (by rw [show (⟨[4, 13, 5, 10], ["exe", "dll", "scr", "com"]⟩ :
          App.AppSigInfo).key = [4, 13, 5, 10] from rfl, u8D_occ]
        exact List.mem_cons_self _ _)
  exact ⟨_, hmem, c8_confidence_bounded u8D .aggressive _ (Or.inl hmem)⟩

/-- **C9.**  In aggressive mode (context validation off, structure
validation skipped) the 0.2 base, the flat 0.3 context weight and the flat
0.25 structure weight are awarded unconditionally, so every raw pattern
match scores at least 0.75, always clearing the aggressive threshold 0.4:
each `indexOf` occurrence of a table signature is emitted as a finding at
byte offset `idx / 2` regardless of context, structure, size or entropy. -/
theorem c9_aggressive_emits_every_match (u8 : List ℕ) (sig : App.AppSigInfo)
    (hsig : sig ∈ App.appSigTable) (idx : ℕ)
    (hidx : idx ∈ occList sig.key (nibbles u8)) :
    Mode.aggressive.threshold = 0.4 ∧
    ∃ f ∈ App.analyzeFileSignaturesA u8 .aggressive,
      f.signature = some sig.key ∧ f.offset = idx / 2 ∧
        (0.75 : ℝ) ≤ f.confidence := by
  obtain ⟨hconf, _⟩ :=
    vsd_aggressive u8 (idx / 2) sig (App.findImageTerminationPoints u8)
  exact ⟨threshold_aggressive,
    ⟨_, aggressive_match_mem u8 sig hsig idx hidx, rfl, rfl, hconf⟩⟩

/-- Witness for C9: the MZ occurrence at nibble index 0 of the 100-byte
source is emitted in aggressive mode with confidence at least 0.75. -/
theorem c9_witness :
    Mode.aggressive.threshold = 0.4 ∧
    ∃ f ∈ App.analyzeFileSignaturesA u8D .aggressive,
      f.signature = some ((⟨[4, 13, 5, 10], ["exe", "dll", "scr", "com"]⟩ :
          App.AppSigInfo).key) ∧ f.offset = 0 / 2 ∧
        (0.75 : ℝ) ≤ f.confidence :=
  c9_aggressive_emits_every_match u8D
    ⟨[4, 13, 5, 10], ["exe", "dll", "scr", "com"]⟩ (List.mem_cons_self _ _) 0
    (by rw [show (⟨[4, 13, 5, 10], ["exe", "dll", "scr", "com"]⟩ :
          App.AppSigInfo).key = [4, 13, 5, 10] from rfl, u8D_occ]
        exact List.mem_cons_self _ _)

end StegCheck
